import Mathlib

/-!
Verification of the Unconsistent_structure_CSV_reader core against its
natural-language specification.  Each Python function relevant to the
checked properties is shallowly embedded as an executable Lean
definition (Python unbounded `int` becomes `Nat`/`Int`; Python `float`
arithmetic inside the HLL estimator is modelled as exact real
arithmetic; fallible calls return `Except`/`Option`; stateful objects
become explicit state records).
-/

namespace CSVReader

/-! ## Block planner (src/core/analysis/block_planner.py) -/

/-- `PlannedBlock` dataclass from `block_planner.py`. -/
structure PlannedBlock where
  block_id : Nat
  start_line : Nat
  end_line : Nat
  deriving Repr, DecidableEq

/-- One sweep of the `while changed` body of
`BlockPlanner._build_sample_indices`: walk adjacent pairs of the sorted
snapshot and insert every midpoint whose gap exceeds `gap`. -/
def sampleSweep (gap : Nat) (samples : List Nat) : List Nat :=
  let ordered := List.insertionSort (· ≤ ·) samples
  (ordered.zip ordered.tail).foldl
    (fun acc (p : Nat × Nat) =>
      let mid := p.1 + (p.2 - p.1) / 2
      if p.2 - p.1 > gap ∧ ¬ mid ∈ acc then mid :: acc else acc)
    samples

/-- Fuel-bounded embedding of the `while changed` fixpoint loop of
`BlockPlanner._build_sample_indices` (the loop adds at least one index
per iteration and indexes are bounded by `total_lines`, so
`total_lines + 1` units of fuel reach the fixpoint). -/
def sampleFix (gap : Nat) (samples : List Nat) : Nat → List Nat
  | 0 => samples
  | fuel + 1 =>
    let next := sampleSweep gap samples
    if next.length = samples.length then samples else sampleFix gap next fuel

/-- `BlockPlanner._build_sample_indices`: start from `{0, total_lines-1}`
and bisect adjacent gaps larger than `min_gap_lines` to a fixpoint,
returning the sorted index list. -/
def buildSampleIndices (minGap total : Nat) : List Nat :=
  if total ≤ 0 then []
  else
    let gap := max 1 minGap
    let init := if total - 1 = 0 then [0] else [0, total - 1]
    List.insertionSort (· ≤ ·) (sampleFix gap init (total + 1))

/-- `BlockPlanner._to_block`: expand one sample index into a clamped
`[start, end]` window of at most `block_size` lines. -/
def toBlock (blockSize lineIndex total : Nat) : Nat × Nat :=
  let half := blockSize / 2
  let total := max 1 total
  let start := lineIndex - half
  let «end» := min (total - 1) (start + blockSize - 1)
  let start := «end» + 1 - blockSize
  (start, «end»)

/-- `BlockPlanner.plan`: expand every sample index, drop duplicate
`(start, end)` windows, and sort the blocks by `start_line` (the
constructor clamps `block_size` and `min_gap_lines` to at least 1). -/
def plan (blockSize minGap total : Nat) : List PlannedBlock :=
  let blockSize := max 1 blockSize
  let indices := buildSampleIndices (max 1 minGap) total
  let planned :=
    (indices.enum.foldl
      (fun (acc : List (Nat × Nat) × List PlannedBlock) (p : Nat × Nat) =>
        let (seen, planned) := acc
        let (start, stop) := toBlock blockSize p.2 total
        if (start, stop) ∈ seen then acc
        else ((start, stop) :: seen,
          planned ++ [⟨p.1, start, stop⟩]))
      ([], [])).2
  List.insertionSort (fun a b => a.start_line ≤ b.start_line) planned

/-- Every window produced by `_to_block` is well-formed: it starts no
later than it ends, ends inside the file, and spans at most
`block_size` lines. -/
theorem toBlock_bounds (blockSize lineIndex total : Nat)
    (h1 : 1 ≤ blockSize) (ht : 1 ≤ total) :
    (toBlock blockSize lineIndex total).1 ≤ (toBlock blockSize lineIndex total).2 ∧
    (toBlock blockSize lineIndex total).2 ≤ total - 1 ∧
    (toBlock blockSize lineIndex total).2 - (toBlock blockSize lineIndex total).1 + 1
      ≤ blockSize := by
  simp only [toBlock]
  omega

/-- Every block surviving the dedup fold of `plan` is either in the
accumulator already or is the `_to_block` expansion of a sample index. -/
theorem plan_fold_mem (blockSize total : Nat) (l : List (Nat × Nat))
    (acc : List (Nat × Nat) × List PlannedBlock) (b : PlannedBlock)
    (hb : b ∈ (l.foldl
      (fun (acc : List (Nat × Nat) × List PlannedBlock) (p : Nat × Nat) =>
        let (seen, planned) := acc
        let (start, stop) := toBlock blockSize p.2 total
        if (start, stop) ∈ seen then acc
        else ((start, stop) :: seen, planned ++ [⟨p.1, start, stop⟩]))
      acc).2) :
    b ∈ acc.2 ∨ ∃ p ∈ l, (b.start_line, b.end_line) = toBlock blockSize p.2 total := by
  induction l generalizing acc with
  | nil => exact Or.inl hb
  | cons p rest ih =>
    simp only [List.foldl_cons] at hb
    rcases ih _ hb with hacc | ⟨q, hq, hq2⟩
    · by_cases hseen : toBlock blockSize p.2 total ∈ acc.1
      · simp only [hseen, if_pos] at hacc
        · exact Or.inl hacc
      · simp only [hseen, if_neg, not_false_iff, List.mem_append, List.mem_singleton] at hacc
        rcases hacc with h | h
        · exact Or.inl h
        · refine Or.inr ⟨p, List.mem_cons_self _ _, ?_⟩
          subst h
          rfl
    · exact Or.inr ⟨q, List.mem_cons_of_mem _ hq, hq2⟩

/-- C4: for every `total_lines ≥ 0`, `block_size ≥ 1` and
`min_gap_lines ≥ 1`, every `PlannedBlock` returned by `BlockPlanner.plan`
satisfies `0 ≤ start_line ≤ end_line ≤ total_lines − 1` and
`end_line − start_line + 1 ≤ block_size`; in particular `plan 0`
returns no blocks. -/
theorem planned_block_invariant (blockSize minGap total : Nat)
    (h1 : 1 ≤ blockSize) (_h2 : 1 ≤ minGap) :
    (∀ b ∈ plan blockSize minGap total,
      0 ≤ b.start_line ∧ b.start_line ≤ b.end_line ∧
      b.end_line ≤ total - 1 ∧ b.end_line - b.start_line + 1 ≤ blockSize) ∧
    plan blockSize minGap 0 = [] := by
  constructor
  · intro b hb
    rcases Nat.eq_zero_or_pos total with h0 | ht
    · subst h0
      simp [plan, buildSampleIndices, List.mem_insertionSort] at hb
    simp only [plan, List.mem_insertionSort] at hb
    rcases plan_fold_mem _ _ _ _ _ hb with h | ⟨p, _, hp⟩
    · simp at h
    · have := toBlock_bounds (max 1 blockSize) p.2 total (le_max_left _ _) ht
      have hs : b.start_line = (toBlock (max 1 blockSize) p.2 total).1 := by
        have := congrArg Prod.fst hp; simpa using this
      have he : b.end_line = (toBlock (max 1 blockSize) p.2 total).2 := by
        have := congrArg Prod.snd hp; simpa using this
      rw [hs, he]
      refine ⟨Nat.zero_le _, this.1, this.2.1, ?_⟩
      omega
  · simp [plan, buildSampleIndices]

/-- Witness for C4: the invariant instantiated at
`block_size = 2`, `min_gap_lines = 1`, `total_lines = 5`, checked on the
first planned block `(start_line = 0, end_line = 1)`. -/
theorem planned_block_invariant_witness :
    (⟨0, 0, 1⟩ : PlannedBlock) ∈ plan 2 1 5 ∧
    (0 ≤ (0 : Nat) ∧ 0 ≤ (1 : Nat) ∧ (1 : Nat) ≤ 5 - 1 ∧ 1 - 0 + 1 ≤ (2 : Nat)) ∧
    plan 2 1 0 = [] := by
  have h := planned_block_invariant 2 1 5 (by decide) (by decide)
  have hmem : (⟨0, 0, 1⟩ : PlannedBlock) ∈ plan 2 1 5 := by decide
  have hinv := h.1 _ hmem
  exact ⟨hmem, ⟨hinv.1, Nat.zero_le _, hinv.2.2.1, hinv.2.2.2⟩,
    (planned_block_invariant 2 1 0 (by decide) (by decide)).2⟩

/-! ## Resource manager (src/core/resources/manager.py) -/

/-- `ResourceLimits` dataclass from `common/models.py` (the `temp_dir`
field plays no role in capacity checks and is omitted). -/
structure ResourceLimits where
  memory_mb : Option Int := none
  spill_mb : Option Int := none
  max_workers : Option Int := none
  deriving Repr, DecidableEq

/-- The mutable in-use counters of `ResourceManager`. -/
structure ResourceUsage where
  memory_in_use : Int := 0
  disk_in_use : Int := 0
  workers_in_use : Int := 0
  deriving Repr, DecidableEq

/-- The three budget errors `_ensure_capacity` can raise. -/
inductive ResourceLimitError where
  | ram
  | disk
  | workers
  deriving Repr, DecidableEq

/-- `ResourceManager._ensure_capacity`: raise the first exceeded-budget
error (RAM, then disk, then workers), otherwise succeed. -/
def ensureCapacity (limits : ResourceLimits) (u : ResourceUsage)
    (memory_mb disk_mb workers : Int) : Except ResourceLimitError Unit := do
  if let some cap := limits.memory_mb then
    if u.memory_in_use + memory_mb > cap then
      throw ResourceLimitError.ram
  if let some cap := limits.spill_mb then
    if u.disk_in_use + disk_mb > cap then
      throw ResourceLimitError.disk
  if let some cap := limits.max_workers then
    if u.workers_in_use + workers > cap then
      throw ResourceLimitError.workers
  return ()

/-- The lease handed back by a successful `reserve`. -/
structure ResourceLease where
  memory_mb : Int
  disk_mb : Int
  workers : Int
  deriving Repr, DecidableEq

/-- `ResourceManager.reserve`: clamp the request to non-negative
amounts, check capacity, and only then add the request to the in-use
counters; the resulting usage is returned alongside the lease (a raise
leaves the counters as they were). -/
def reserve (limits : ResourceLimits) (u : ResourceUsage)
    (memory_mb disk_mb workers : Int) :
    Except ResourceLimitError (ResourceLease × ResourceUsage) × ResourceUsage :=
  let memory_mb := max 0 memory_mb
  let disk_mb := max 0 disk_mb
  let workers := max 0 workers
  match ensureCapacity limits u memory_mb disk_mb workers with
  | .error e => (.error e, u)
  | .ok _ =>
    let u' : ResourceUsage :=
      { memory_in_use := u.memory_in_use + memory_mb
        disk_in_use := u.disk_in_use + disk_mb
        workers_in_use := u.workers_in_use + workers }
    (.ok (⟨memory_mb, disk_mb, workers⟩, u'), u')

/-- C10: `reserve` fails exactly when one of the configured ceilings
would be exceeded by adding the clamped request to the corresponding
in-use total, and on failure all three in-use counters are unchanged. -/
theorem reserve_atomic_on_failure (limits : ResourceLimits) (u : ResourceUsage)
    (memory_mb disk_mb workers : Int) :
    ((∃ e, (reserve limits u memory_mb disk_mb workers).1 = .error e) ↔
      ((∃ cap, limits.memory_mb = some cap ∧ u.memory_in_use + max 0 memory_mb > cap) ∨
       (∃ cap, limits.spill_mb = some cap ∧ u.disk_in_use + max 0 disk_mb > cap) ∨
       (∃ cap, limits.max_workers = some cap ∧ u.workers_in_use + max 0 workers > cap))) ∧
    (∀ e, (reserve limits u memory_mb disk_mb workers).1 = .error e →
      (reserve limits u memory_mb disk_mb workers).2 = u) := by
  constructor
  · unfold reserve ensureCapacity
    rcases limits with ⟨m, d, w⟩
    rcases m with _ | mc <;> rcases d with _ | dc <;> rcases w with _ | wc <;>
      simp only [bind, pure, Except.bind, Except.pure, throw, throwThe,
        MonadExceptOf.throw] <;>
      first
      | (split_ifs <;> simp_all)
      | simp_all
  · intro e he
    unfold reserve at he ⊢
    rcases hult : ensureCapacity limits u (max 0 memory_mb) (max 0 disk_mb)
        (max 0 workers) with _ | _ <;> simp [hult] at he ⊢

/-- Witness for C10: with a 10 MB RAM ceiling and 5 MB in use, a 6 MB
reservation raises the RAM budget error and leaves the counters at
`(5, 0, 0)`. -/
theorem reserve_atomic_on_failure_witness :
    (reserve ⟨some 10, none, none⟩ ⟨5, 0, 0⟩ 6 0 0).1 =
      .error ResourceLimitError.ram ∧
    (reserve ⟨some 10, none, none⟩ ⟨5, 0, 0⟩ 6 0 0).2 = ⟨5, 0, 0⟩ := by
  have h := reserve_atomic_on_failure ⟨some 10, none, none⟩ ⟨5, 0, 0⟩ 6 0 0
  have he : (reserve ⟨some 10, none, none⟩ ⟨5, 0, 0⟩ 6 0 0).1 =
      .error ResourceLimitError.ram := by rfl
  exact ⟨he, h.2 _ he⟩

/-! ## Job state machine (src/core/jobs/state_machine.py) -/

/-- `JobState` enum. -/
inductive JobState where
  | PENDING | ANALYZING | MAPPING | MATERIALIZING | VALIDATING
  | DONE | FAILED | CANCELLED
  deriving Repr, DecidableEq

/-- `_TERMINAL_STATES`. -/
def isTerminal : JobState → Bool
  | .DONE | .FAILED | .CANCELLED => true
  | _ => false

/-- `_STATE_ORDER` (states outside the table, i.e. FAILED/CANCELLED, get
rank `-1` via `dict.get(..., -1)`). -/
def stateOrder : JobState → Int
  | .PENDING => 0
  | .ANALYZING => 1
  | .MAPPING => 2
  | .MATERIALIZING => 3
  | .VALIDATING => 4
  | .DONE => 5
  | .FAILED => -1
  | .CANCELLED => -1

/-- A `JobStateMachine` modelled as its current state plus the list of
states recorded so far (each accepted change calls `_record`, which
upserts a status row and appends an event row). -/
structure JobMachine where
  state : JobState
  recorded : List JobState
  deriving Repr, DecidableEq

/-- `JobStateMachine.__init__`: start in `PENDING` and record it. -/
def initMachine : JobMachine := ⟨.PENDING, [.PENDING]⟩

/-- `JobStateMachine._can_transition`. -/
def canTransition (current target : JobState) : Bool :=
  if isTerminal current then false
  else if target = .FAILED ∨ target = .CANCELLED then true
  else stateOrder target ≥ stateOrder current

/-- `JobStateMachine.transition`: same-state calls return without
recording; illegal moves raise `ValueError`; accepted moves set the
state and record it. -/
def transition (m : JobMachine) (target : JobState) :
    Except String JobMachine :=
  if target = m.state then .ok m
  else if ¬ canTransition m.state target then
    .error ("Invalid transition")
  else .ok ⟨target, m.recorded ++ [target]⟩

/-- `JobStateMachine.mark_failed`: unconditionally set the state to
`FAILED` and record it (no terminal-state check). -/
def markFailed (m : JobMachine) : JobMachine :=
  ⟨.FAILED, m.recorded ++ [.FAILED]⟩

/-- `JobStateMachine.mark_cancelled`: unconditionally set the state to
`CANCELLED` and record it (no terminal-state check). -/
def markCancelled (m : JobMachine) : JobMachine :=
  ⟨.CANCELLED, m.recorded ++ [.CANCELLED]⟩

/-- Counterexample to C3 as stated: starting from the initial machine,
`transition` to the terminal state `DONE` is accepted, after which
`mark_failed` still changes the state (to `FAILED`), so a terminal state
does not reject every further state change of the call sequence
`[transition DONE, mark_failed]`. -/
theorem terminal_not_absorbing_cex :
    (transition initMachine .DONE).map (fun m => isTerminal m.state) =
      .ok true ∧
    (transition initMachine .DONE).map (fun m => (markFailed m).state) =
      .ok .FAILED ∧
    JobState.FAILED ≠ JobState.DONE := by
  refine ⟨rfl, rfl, by decide⟩

/-- C3 (amended): `transition` accepts no state change from a terminal
state and a same-state `transition` is a no-op (state unchanged, nothing
recorded); every state change accepted by `transition` either targets
`FAILED`/`CANCELLED` from a non-terminal state or does not decrease the
rank; but `mark_failed` and `mark_cancelled` bypass the terminal check
and unconditionally force the state to `FAILED`/`CANCELLED`, recording
an event even from a terminal state. -/
theorem job_state_machine_transitions (m : JobMachine) (target : JobState) :
    (isTerminal m.state = true → target ≠ m.state →
      transition m target = .error "Invalid transition") ∧
    (target = m.state → transition m target = .ok m) ∧
    (∀ m', transition m target = .ok m' → m'.state ≠ m.state →
      isTerminal m.state = false ∧
      (target = .FAILED ∨ target = .CANCELLED ∨
        stateOrder target ≥ stateOrder m.state)) ∧
    (markFailed m).state = .FAILED ∧
    (markCancelled m).state = .CANCELLED ∧
    (markFailed m).recorded = m.recorded ++ [.FAILED] := by
  refine ⟨?_, ?_, ?_, rfl, rfl, rfl⟩
  · intro hterm hne
    simp only [transition, canTransition, hterm, if_true]
    rw [if_neg hne]
    simp
  · intro h
    simp [transition, h]
  · intro m' hok hne
    by_cases hsame : target = m.state
    · simp [transition, hsame] at hok
      subst hok
      exact absurd rfl hne
    · simp only [transition, hsame, if_false] at hok
      by_cases hcan : canTransition m.state target
      · simp only [hcan, not_true, if_neg, if_false] at hok
        simp only [canTransition] at hcan
        by_cases hterm : isTerminal m.state
        · simp [hterm] at hcan
        · refine ⟨by simpa using hterm, ?_⟩
          by_cases hfc : target = JobState.FAILED ∨ target = JobState.CANCELLED
          · rcases hfc with h | h
            · exact Or.inl h
            · exact Or.inr (Or.inl h)
          · simp only [hterm, if_false, hfc, if_false] at hcan
            exact Or.inr (Or.inr (by simpa using hcan))
      · simp [hcan] at hok

/-- Witness for C3 (amended): from the terminal machine
`⟨DONE, [PENDING, DONE]⟩`, a `transition` to `MAPPING` errors, a
same-state `transition` is a no-op, and `mark_failed` still forces
`FAILED`. -/
theorem job_state_machine_transitions_witness :
    transition ⟨.DONE, [.PENDING, .DONE]⟩ .MAPPING =
      .error "Invalid transition" ∧
    transition ⟨.DONE, [.PENDING, .DONE]⟩ .DONE =
      .ok ⟨.DONE, [.PENDING, .DONE]⟩ ∧
    (markFailed ⟨.DONE, [.PENDING, .DONE]⟩).state = .FAILED := by
  have h := job_state_machine_transitions ⟨.DONE, [.PENDING, .DONE]⟩ .MAPPING
  have h2 := job_state_machine_transitions ⟨.DONE, [.PENDING, .DONE]⟩ .DONE
  exact ⟨h.1 (by decide) (by decide), h2.2.1 rfl, h.2.2.2.1⟩

/-! ## Validation tracker (src/core/materialization/runner.py, class
`ValidationTracker`) -/

/-- Truthiness of `value.strip()` in Python: a string is blank iff every
character is whitespace. -/
def isBlankStr (s : String) : Bool := s.toList.all Char.isWhitespace

/-- The counters of a `ValidationTracker` (the optional canonical
validator is not involved in the row-shape claims and is omitted; when
present it is invoked on the normalized row without changing it). -/
structure ValidationTracker where
  expected_columns : Nat
  total_rows : Nat := 0
  short_rows : Nat := 0
  long_rows : Nat := 0
  empty_rows : Nat := 0
  deriving Repr, DecidableEq

/-- `ValidationTracker.__init__`: clamp `expected_columns` to ≥ 1. -/
def mkTracker (expected : Nat) : ValidationTracker :=
  { expected_columns := max 1 expected }

/-- `ValidationTracker.normalize`: count an all-blank row, then branch on
the `observed_length` hint (defaulting to the actual length) to pad,
truncate, or keep the row, bump `total_rows`, and return the row. -/
def vtNormalize (t : ValidationTracker) (values : List String)
    (observed : Option Nat) : List String × ValidationTracker :=
  let t1 := if values.all isBlankStr then
    { t with empty_rows := t.empty_rows + 1 } else t
  let lengthHint := observed.getD values.length
  let adjust : List String → List String := fun normalized =>
    if normalized.length < t.expected_columns then
      normalized ++ List.replicate (t.expected_columns - normalized.length) ""
    else if normalized.length > t.expected_columns then
      normalized.take t.expected_columns
    else normalized
  if lengthHint < t.expected_columns then
    (adjust values,
      { t1 with short_rows := t1.short_rows + 1, total_rows := t1.total_rows + 1 })
  else if lengthHint > t.expected_columns then
    (values.take t.expected_columns,
      { t1 with long_rows := t1.long_rows + 1, total_rows := t1.total_rows + 1 })
  else
    (adjust values, { t1 with total_rows := t1.total_rows + 1 })

/-- Counterexample to C8 as stated: with `expected_columns = 3`, the row
`["a"]` passed with the hint `observed_length = 5` is classified long and
truncated, returning a single-element row instead of exactly three
values. -/
theorem normalize_width_cex :
    ((vtNormalize (mkTracker 3) ["a"] (some 5)).1).length = 1 ∧
    (mkTracker 3).expected_columns = 3 ∧
    ((vtNormalize (mkTracker 3) ["a"] (some 5)).1).length ≠
      (mkTracker 3).expected_columns := by
  refine ⟨by decide, by decide, by decide⟩

/-- C8 (amended): when `observed_length` is not supplied, `normalize`
returns exactly `expected_columns` values: a strictly shorter row is
padded at the end with empty strings and bumps `short_rows`; a strictly
longer row is truncated and bumps `long_rows`; an exact-width row is
returned unchanged; an all-blank row additionally bumps `empty_rows`.
(With an inconsistent explicit `observed_length` hint the
short/long classification follows the hint while padding/truncation
follows the actual length, so the exact-width guarantee can fail.) -/
theorem normalize_width (t : ValidationTracker) (values : List String)
    (_h1 : 1 ≤ t.expected_columns) :
    ((vtNormalize t values none).1).length = t.expected_columns ∧
    (values.length < t.expected_columns →
      (vtNormalize t values none).1 =
        values ++ List.replicate (t.expected_columns - values.length) "" ∧
      (vtNormalize t values none).2.short_rows = t.short_rows + 1 ∧
      (vtNormalize t values none).2.long_rows = t.long_rows) ∧
    (values.length > t.expected_columns →
      (vtNormalize t values none).1 = values.take t.expected_columns ∧
      (vtNormalize t values none).2.long_rows = t.long_rows + 1 ∧
      (vtNormalize t values none).2.short_rows = t.short_rows) ∧
    (values.length = t.expected_columns →
      (vtNormalize t values none).1 = values ∧
      (vtNormalize t values none).2.short_rows = t.short_rows ∧
      (vtNormalize t values none).2.long_rows = t.long_rows) ∧
    ((values.all isBlankStr) = true →
      (vtNormalize t values none).2.empty_rows = t.empty_rows + 1) ∧
    ((values.all isBlankStr) = false →
      (vtNormalize t values none).2.empty_rows = t.empty_rows) := by
  simp only [vtNormalize, Option.getD]
  rcases Nat.lt_trichotomy values.length t.expected_columns with hlt | heq | hgt
  · simp only [hlt, if_pos, Nat.lt_irrefl]
    constructor
    · by_cases hblank : values.all isBlankStr <;>
        simp [hblank, hlt, Nat.not_lt_of_lt hlt, List.length_append,
          List.length_replicate] <;> omega
    · by_cases hblank : values.all isBlankStr <;>
        simp [hblank, hlt, Nat.not_lt_of_lt hlt] <;> omega
  · simp only [heq, Nat.lt_irrefl, if_neg, Nat.not_lt]
    by_cases hblank : values.all isBlankStr <;>
      simp [hblank, heq]
  · have hnlt : ¬ values.length < t.expected_columns := Nat.not_lt_of_lt hgt
    by_cases hblank : values.all isBlankStr <;>
      simp [hblank, hnlt, hgt, Nat.lt_asymm hgt, List.length_take] <;> omega

/-- Witness for C8 (amended): tracker with `expected_columns = 3`
normalizing the short all-blank row `[" "]` (no hint). -/
theorem normalize_width_witness :
    ((vtNormalize (mkTracker 3) [" "] none).1).length =
      (mkTracker 3).expected_columns ∧
    (vtNormalize (mkTracker 3) [" "] none).1 = [" ", "", ""] ∧
    (vtNormalize (mkTracker 3) [" "] none).2.short_rows = 1 ∧
    (vtNormalize (mkTracker 3) [" "] none).2.empty_rows = 1 := by
  have h := normalize_width (mkTracker 3) [" "] (by decide)
  refine ⟨h.1, ?_, ?_, ?_⟩
  · have := (h.2.1 (by decide)).1
    simpa using this
  · have := (h.2.1 (by decide)).2.1
    simpa using this
  · have := h.2.2.2.2.1 (by decide)
    simpa using this

/-! ## Offset detection (src/core/mapping/offset_detection.py)

Python `dict`s preserve insertion order, so they are embedded as
association lists; `collections.Counter` update and `dict.setdefault`
become the corresponding association-list operations.  `Path` values are
modelled by their string representation (`as_posix` is the identity in
the model). -/

/-- Ordered-dict lookup. -/
def alistGet {K V : Type} [DecidableEq K] (l : List (K × V)) (k : K) : Option V :=
  match l with
  | [] => none
  | (k', v) :: rest => if k' = k then some v else alistGet rest k

/-- `d[k] = d.get(k, 0) + n` on an insertion-ordered dict of counts. -/
def alistAdd {K : Type} [DecidableEq K] (l : List (K × Nat)) (k : K) (n : Nat) :
    List (K × Nat) :=
  match l with
  | [] => [(k, n)]
  | (k', c) :: rest =>
    if k' = k then (k', c + n) :: rest else (k', c) :: alistAdd rest k n

/-- `d[k] = v` on an insertion-ordered dict. -/
def alistSet {K V : Type} [DecidableEq K] (l : List (K × V)) (k : K) (v : V) :
    List (K × V) :=
  match l with
  | [] => [(k, v)]
  | (k', v') :: rest =>
    if k' = k then (k', v) :: rest else (k', v') :: alistSet rest k v

/-- `d.setdefault(k, []).append(v)` on an insertion-ordered dict of
lists. -/
def alistAppend {K V : Type} [DecidableEq K] (l : List (K × List V)) (k : K)
    (v : V) : List (K × List V) :=
  match l with
  | [] => [(k, [v])]
  | (k', vs) :: rest =>
    if k' = k then (k', vs ++ [v]) :: rest else (k', vs) :: alistAppend rest k v

/-- First-occurrence deduplication: the key order of a Python dict or the
element set of a Python `set` built by left-to-right insertion. -/
def firstDedup {K : Type} [DecidableEq K] (l : List K) : List K :=
  l.foldl (fun acc x => if x ∈ acc then acc else acc ++ [x]) []

/-- The fields of `HeaderVariant` read by `detect_offsets`
(`raw_name`, `normalized_name`, `sample_values` and `row_count` are
never consulted there and are omitted). -/
structure HeaderVariant where
  file_path : String
  column_index : Nat
  detected_types : List (String × Nat) := []
  deriving Repr, DecidableEq

/-- The fields of `HeaderCluster` read by `detect_offsets`. -/
structure HeaderCluster where
  canonical_name : String
  variants : List HeaderVariant := []
  deriving Repr, DecidableEq

/-- The fields of `ColumnProfileResult` read by `detect_offsets`. -/
structure ColumnProfileResult where
  file_id : String
  column_index : Nat
  type_distribution : List (String × Nat) := []
  deriving Repr, DecidableEq

/-- `SchemaMappingEntry` dataclass (`offset_confidence` is a Python
float, modelled as an exact rational). -/
structure SchemaMappingEntry where
  file_path : String
  source_index : Nat
  canonical_name : String
  target_index : Nat
  offset_from_index : Option Int := none
  offset_reason : Option String := none
  offset_confidence : Option ℚ := none
  deriving Repr, DecidableEq

/-- The bucket renaming table of `_normalize_counts` (`null` collapses
into `empty`; unknown buckets map to themselves). -/
def mapBucket (b : String) : String := if b = "null" then "empty" else b

/-- `_normalize_counts`: merge buckets via `mapBucket`, then divide each
count by the grand total (empty result when the total is ≤ 0). -/
def normalizeCounts (counts : List (String × Nat)) : List (String × ℚ) :=
  let normalized := counts.foldl (fun acc p => alistAdd acc (mapBucket p.1) p.2) []
  let total : ℚ := ((normalized.map (·.2)).sum : Nat)
  if total ≤ 0 then []
  else normalized.map (fun p => (p.1, (p.2 : ℚ) / total))

/-- Python's banker's rounding to an integer. -/
def roundHalfEven (x : ℚ) : ℤ :=
  let f := ⌊x⌋
  if x - f < 1/2 then f
  else if x - f > 1/2 then f + 1
  else if f % 2 = 0 then f else f + 1

/-- `round(x, 2)`. -/
def qRound2 (x : ℚ) : ℚ := (roundHalfEven (x * 100) : ℚ) / 100

/-- `_type_confidence`: L1 distance between the normalized observed and
canonical type distributions, turned into a score in `[0, 1]`. -/
def typeConfidence (profile : Option ColumnProfileResult)
    (canonical : List (String × Nat)) : Option ℚ :=
  match profile with
  | none => none
  | some p =>
    if canonical.isEmpty then none
    else
      let canonicalTotal := (canonical.map (·.2)).sum
      if canonicalTotal = 0 then none
      else
        let canonicalNorm := normalizeCounts canonical
        let observedNorm := normalizeCounts p.type_distribution
        let keys := firstDedup (canonicalNorm.map (·.1) ++ observedNorm.map (·.1))
        if keys.isEmpty then none
        else
          let distance := (keys.map (fun k =>
            |((alistGet canonicalNorm k).getD 0) -
              ((alistGet observedNorm k).getD 0)|)).sum
          let score := max 0 (1 - distance / (keys.length : ℚ))
          some (qRound2 score)

/-- `_build_profile_lookup`: dict keyed by `(file_id, column_index)`
(later profiles overwrite earlier ones). -/
def buildProfileLookup (profiles : List ColumnProfileResult) :
    List ((String × Nat) × ColumnProfileResult) :=
  profiles.foldl (fun acc p => alistSet acc (p.file_id, p.column_index) p) []

/-- The flat `(canonical_name, (file_path, column_index))` stream of the
variant loop of `detect_offsets`, in iteration order. -/
def variantPairs (clusters : List HeaderCluster) :
    List (String × (String × Nat)) :=
  clusters.flatMap (fun cl =>
    cl.variants.map (fun v => (cl.canonical_name, (v.file_path, v.column_index))))

/-- `col_map`: group the variant stream by canonical name with
`setdefault(...).append(...)`. -/
def colMapOf (clusters : List HeaderCluster) :
    List (String × List (String × Nat)) :=
  (variantPairs clusters).foldl (fun acc p => alistAppend acc p.1 p.2) []

/-- `Counter.update`: add every count of `upd` into `c`. -/
def counterUpdate (c upd : List (String × Nat)) : List (String × Nat) :=
  upd.foldl (fun acc p => alistAdd acc p.1 p.2) c

/-- `cluster_profiles`: per canonical name, the `Counter` sum of every
variant's `detected_types` (the key is registered by `setdefault` even
for variant-less clusters). -/
def clusterProfilesOf (clusters : List HeaderCluster) :
    List (String × List (String × Nat)) :=
  clusters.foldl (fun pf cl =>
    let pf := if (alistGet pf cl.canonical_name).isSome then pf
      else pf ++ [(cl.canonical_name, ([] : List (String × Nat)))]
    cl.variants.foldl (fun pf v =>
      alistSet pf cl.canonical_name
        (counterUpdate ((alistGet pf cl.canonical_name).getD []) v.detected_types))
      pf) []

/-- `index_counts`: occurrence counts of each source index, keyed in
first-occurrence order. -/
def buildIndexCounts (positions : List (String × Nat)) : List (Nat × Nat) :=
  positions.foldl (fun acc p => alistAdd acc p.2 1) []

/-- Python's `max(index_counts, key=index_counts.get)`: scan the keys in
dict order and keep the first one whose count is not exceeded later (a
later key replaces the current best only with a strictly greater
count).  The `0` fallback for an empty dict is unreachable: `col_map`
values are non-empty (Python `max` would raise there). -/
def pyMaxKey (counts : List (Nat × Nat)) : Nat :=
  match counts with
  | [] => 0
  | c :: rest => (rest.foldl (fun best p => if p.2 > best.2 then p else best) c).1

/-- The body of the entry-emission loop of `detect_offsets` for one
`(file_path, source_index)` position of a canonical name. -/
def mkEntry (lookup : List ((String × Nat) × ColumnProfileResult))
    (canonical : String) (canonicalProfile : List (String × Nat))
    (targetIndex : Nat) (pos : String × Nat) : SchemaMappingEntry :=
  let offset : Int := (pos.2 : Int) - (targetIndex : Int)
  let profile := alistGet lookup (pos.1, pos.2)
  let confidence := typeConfidence profile canonicalProfile
  { file_path := pos.1
    source_index := pos.2
    canonical_name := canonical
    target_index := targetIndex
    offset_from_index := if offset ≠ 0 then some offset else none
    offset_reason := if offset ≠ 0 then some "auto-detected" else none
    offset_confidence :=
      match confidence with
      | some c => some c
      | none => if offset ≠ 0 then some 1 else none }

/-- `detect_offsets`: group variants by canonical name, pick each name's
target index as the most frequent source index, and emit one
`SchemaMappingEntry` per `(file, source_index)` occurrence. -/
def detectOffsets (clusters : List HeaderCluster)
    (columnProfiles : Option (List ColumnProfileResult)) :
    List SchemaMappingEntry :=
  let lookup := buildProfileLookup (columnProfiles.getD [])
  let clusterProfiles := clusterProfilesOf clusters
  (colMapOf clusters).foldl
    (fun entries g =>
      let targetIndex := pyMaxKey (buildIndexCounts g.2)
      let canonicalProfile := (alistGet clusterProfiles g.1).getD []
      entries ++ g.2.map (mkEntry lookup g.1 canonicalProfile targetIndex))
    []

/-- The source-index observations collected for a canonical name, in
variant iteration order (the spec's "(file, source_index) occurrence"
stream restricted to one name, keeping only the index). -/
def observationsOf (clusters : List HeaderCluster) (c : String) : List Nat :=
  (clusters.filter (fun cl => cl.canonical_name = c)).flatMap
    (fun cl => cl.variants.map (·.column_index))

theorem mem_foldl_append {α β : Type} (l : List α) (f : α → List β)
    (init : List β) (b : β)
    (hb : b ∈ l.foldl (fun acc p => acc ++ f p) init) :
    b ∈ init ∨ ∃ p ∈ l, b ∈ f p := by
  induction l generalizing init with
  | nil => exact Or.inl hb
  | cons p rest ih =>
    rcases ih _ hb with h | ⟨q, hq, hq2⟩
    · rcases List.mem_append.1 h with h | h
      · exact Or.inl h
      · exact Or.inr ⟨p, List.mem_cons_self _ _, h⟩
    · exact Or.inr ⟨q, List.mem_cons_of_mem _ hq, hq2⟩

theorem alistGet_alistAppend {K V : Type} [DecidableEq K]
    (l : List (K × List V)) (k key : K) (v : V) :
    alistGet (alistAppend l k v) key =
      if key = k then some (((alistGet l k).getD []) ++ [v])
      else alistGet l key := by
  induction l with
  | nil =>
    by_cases h : key = k
    · simp [alistAppend, alistGet, h]
    · simp [alistAppend, alistGet, h, Ne.symm h]
  | cons p rest ih =>
    by_cases h1 : p.1 = k
    · subst h1
      by_cases h2 : key = p.1
      · subst h2
        simp [alistAppend, alistGet]
      · simp [alistAppend, alistGet, h2, Ne.symm h2]
    · by_cases h2 : p.1 = key
      · subst h2
        have hk : ¬ p.1 = k := h1
        simp [alistAppend, alistGet, hk, Ne.symm hk]
      · simp [alistAppend, alistGet, h1, h2, ih]

/-- Appending `newv` observations group-wise: helper describing the
lookup after folding `alistAppend` over a pair stream. -/
def optApp {V : Type} (o : Option (List V)) (newv : List V) : Option (List V) :=
  match o, newv with
  | none, [] => none
  | o, newv => some (o.getD [] ++ newv)

theorem alistGet_foldl_alistAppend {K V : Type} [DecidableEq K]
    (pairs : List (K × V)) (key : K) :
    ∀ acc : List (K × List V),
      alistGet (pairs.foldl (fun acc p => alistAppend acc p.1 p.2) acc) key =
        optApp (alistGet acc key) ((pairs.filter (fun p => p.1 = key)).map (·.2)) := by
  induction pairs with
  | nil =>
    intro acc
    rcases h : alistGet acc key with _ | vs <;> simp [optApp, h]
  | cons p rest ih =>
    intro acc
    simp only [List.foldl_cons]
    rw [ih, alistGet_alistAppend]
    by_cases h : p.1 = key
    · simp only [h, if_pos, List.filter_cons, decide_eq_true_eq, h.symm ▸ h,
        if_true, List.map_cons]
      rcases hv : alistGet acc key with _ | vs <;> simp [optApp, hv, h]
    · have h' : ¬ key = p.1 := fun hk => h hk.symm
      simp [optApp, List.filter_cons, h, h']

/-- Keys of the ordered dicts built by `alistAppend`. -/
theorem alistGet_isSome_alistAppend {K V : Type} [DecidableEq K]
    (l : List (K × List V)) (k key : K) (v : V) :
    (alistGet (alistAppend l k v) key).isSome ↔
      (alistGet l key).isSome ∨ key = k := by
  rw [alistGet_alistAppend]
  by_cases h : key = k <;> simp [h]

theorem alist_keys_nodup_mem {K V : Type} [DecidableEq K]
    (l : List (K × V)) (hnd : (l.map (·.1)).Nodup) (k : K) (v : V)
    (hm : (k, v) ∈ l) : alistGet l k = some v := by
  induction l with
  | nil => simp at hm
  | cons p rest ih =>
    rcases List.mem_cons.1 hm with h | h
    · subst h
      simp [alistGet]
    · have h1 : p.1 ≠ k := by
        intro he
        have : k ∈ rest.map (·.1) := List.mem_map.2 ⟨(k, v), h, rfl⟩
        rw [List.map_cons, List.nodup_cons] at hnd
        exact hnd.1 (he ▸ this)
      simp only [alistGet, h1, if_neg, not_false_iff]
      exact ih (by rw [List.map_cons, List.nodup_cons] at hnd; exact hnd.2) h

theorem alistAppend_mem_key {K V : Type} [DecidableEq K]
    (l : List (K × List V)) (k : K) (v : V) (q : K × List V)
    (hq : q ∈ alistAppend l k v) : q.1 ∈ l.map (·.1) ∨ q.1 = k := by
  induction l with
  | nil =>
    simp only [alistAppend, List.mem_singleton] at hq
    exact Or.inr (by rw [hq])
  | cons p rest ih =>
    by_cases h : p.1 = k
    · simp only [alistAppend, h, if_pos, List.mem_cons] at hq
      rcases hq with h1 | h1
      · exact Or.inr (by rw [h1])
      · exact Or.inl (List.mem_map.2 ⟨q, List.mem_cons_of_mem _ h1, rfl⟩)
    · simp only [alistAppend, h, if_neg, not_false_iff, List.mem_cons] at hq
      rcases hq with h1 | h1
      · exact Or.inl (by rw [h1]; simp)
      · rcases ih h1 with h2 | h2
        · exact Or.inl (by simp only [List.map_cons, List.mem_cons]; exact Or.inr h2)
        · exact Or.inr h2

theorem alistAppend_keys_nodup {K V : Type} [DecidableEq K]
    (l : List (K × List V)) (hnd : (l.map (·.1)).Nodup) (k : K) (v : V) :
    ((alistAppend l k v).map (·.1)).Nodup := by
  induction l with
  | nil => simp [alistAppend]
  | cons p rest ih =>
    rw [List.map_cons, List.nodup_cons] at hnd
    by_cases h : p.1 = k
    · simpa [alistAppend, h, List.nodup_cons] using hnd
    · simp only [alistAppend, h, if_neg, not_false_iff, List.map_cons,
        List.nodup_cons]
      refine ⟨?_, ih hnd.2⟩
      intro hmem
      rcases List.mem_map.1 hmem with ⟨q, hq, hq2⟩
      have := alistAppend_mem_key rest k v q hq
      rcases this with h1 | h1
      · exact hnd.1 (hq2 ▸ h1)
      · exact h (hq2 ▸ h1)

theorem mem_foldl_dedupIns {K : Type} [DecidableEq K] (l : List K)
    (acc : List K) (x : K) :
    x ∈ l.foldl (fun acc y => if y ∈ acc then acc else acc ++ [y]) acc ↔
      x ∈ acc ∨ x ∈ l := by
  induction l generalizing acc with
  | nil => simp
  | cons y rest ih =>
    simp only [List.foldl_cons]
    rw [ih]
    by_cases h : y ∈ acc
    · simp only [h, if_pos]
      constructor
      · rintro (h1 | h1)
        · exact Or.inl h1
        · exact Or.inr (List.mem_cons_of_mem _ h1)
      · rintro (h1 | h1)
        · exact Or.inl h1
        · rcases List.mem_cons.1 h1 with h2 | h2
          · exact Or.inl (h2 ▸ h)
          · exact Or.inr h2
    · simp only [h, if_neg, not_false_iff, List.mem_append, List.mem_singleton,
        List.mem_cons]
      tauto

theorem mem_firstDedup {K : Type} [DecidableEq K] (l : List K) (x : K) :
    x ∈ firstDedup l ↔ x ∈ l := by
  rw [firstDedup, mem_foldl_dedupIns]
  simp

theorem firstDedup_concat {K : Type} [DecidableEq K] (l : List K) (x : K) :
    firstDedup (l ++ [x]) =
      if x ∈ l then firstDedup l else firstDedup l ++ [x] := by
  rw [firstDedup, List.foldl_append]
  simp only [List.foldl_cons, List.foldl_nil]
  rw [← firstDedup]
  by_cases h : x ∈ l
  · rw [if_pos ((mem_firstDedup l x).2 h), if_pos h]
  · rw [if_neg (fun hm => h ((mem_firstDedup l x).1 hm)), if_neg h]

theorem nodup_foldl_dedupIns {K : Type} [DecidableEq K] (l : List K)
    (acc : List K) (hacc : acc.Nodup) :
    (l.foldl (fun acc y => if y ∈ acc then acc else acc ++ [y]) acc).Nodup := by
  induction l generalizing acc with
  | nil => exact hacc
  | cons y rest ih =>
    simp only [List.foldl_cons]
    by_cases h : y ∈ acc
    · rw [if_pos h]; exact ih _ hacc
    · rw [if_neg h]
      exact ih _ (by simp [List.nodup_append, hacc, h])

theorem firstDedup_nodup {K : Type} [DecidableEq K] (l : List K) :
    (firstDedup l).Nodup :=
  nodup_foldl_dedupIns l [] List.nodup_nil

theorem firstDedup_pairwise_indexOf {K : Type} [DecidableEq K] (il : List K) :
    (firstDedup il).Pairwise (fun a b => il.indexOf a < il.indexOf b) := by
  induction il using List.reverseRecOn with
  | nil => simp [firstDedup]
  | append_singleton l x ih =>
    rw [firstDedup_concat]
    by_cases h : x ∈ l
    · rw [if_pos h]
      refine ih.imp_of_mem ?_
      intro a b ha hb hab
      have ha' := (mem_firstDedup l a).1 ha
      have hb' := (mem_firstDedup l b).1 hb
      rwa [List.indexOf_append_of_mem ha', List.indexOf_append_of_mem hb']
    · rw [if_neg h]
      rw [List.pairwise_append]
      refine ⟨ih.imp_of_mem ?_, List.pairwise_singleton _ _, ?_⟩
      · intro a b ha hb hab
        have ha' := (mem_firstDedup l a).1 ha
        have hb' := (mem_firstDedup l b).1 hb
        rwa [List.indexOf_append_of_mem ha', List.indexOf_append_of_mem hb']
      · intro a ha b hb
        rw [List.mem_singleton] at hb
        subst hb
        have ha' := (mem_firstDedup l a).1 ha
        rw [List.indexOf_append_of_mem ha',
          List.indexOf_append_of_not_mem h, List.indexOf_cons_self]
        have := List.indexOf_lt_length.2 ha'
        omega

theorem alistAdd_map_mem {K : Type} [DecidableEq K] (ks : List K) (f : K → Nat)
    (x : K) (hx : x ∈ ks) (hnd : ks.Nodup) :
    alistAdd (ks.map (fun k => (k, f k))) x 1 =
      ks.map (fun k => (k, if k = x then f k + 1 else f k)) := by
  induction ks with
  | nil => simp at hx
  | cons k rest ih =>
    rcases List.mem_cons.1 hx with h | h
    · subst h
      simp only [List.map_cons, alistAdd, if_pos rfl, if_true]
      congr 1
      refine (List.map_congr_left ?_).symm
      intro a ha
      have : a ≠ x := fun he => (List.nodup_cons.1 hnd).1 (he ▸ ha)
      simp [this]
    · have hkx : k ≠ x := fun he => (List.nodup_cons.1 hnd).1 (he ▸ h)
      simp only [List.map_cons, alistAdd, hkx, if_neg, if_false]
      rw [ih h (List.nodup_cons.1 hnd).2]

theorem alistAdd_map_not_mem {K : Type} [DecidableEq K] (ks : List K)
    (f : K → Nat) (x : K) (hx : x ∉ ks) :
    alistAdd (ks.map (fun k => (k, f k))) x 1 =
      ks.map (fun k => (k, f k)) ++ [(x, 1)] := by
  induction ks with
  | nil => simp [alistAdd]
  | cons k rest ih =>
    have hkx : k ≠ x := fun he => hx (he ▸ List.mem_cons_self _ _)
    simp only [List.map_cons, alistAdd, hkx, if_neg, if_false, List.cons_append]
    rw [ih (fun hm => hx (List.mem_cons_of_mem _ hm))]

/-- `index_counts` as a dict equals: the distinct indexes in
first-occurrence order, each paired with its occurrence count. -/
theorem buildIndexCounts_eq (positions : List (String × Nat)) :
    buildIndexCounts positions =
      (firstDedup (positions.map (·.2))).map
        (fun k => (k, (positions.map (·.2)).count k)) := by
  induction positions using List.reverseRecOn with
  | nil => simp [buildIndexCounts, firstDedup]
  | append_singleton ps p ih =>
    rw [buildIndexCounts, List.foldl_append, List.foldl_cons, List.foldl_nil,
      ← buildIndexCounts, ih]
    have hmapapp : (ps ++ [p]).map (·.2) = ps.map (·.2) ++ [p.2] := by simp
    rw [hmapapp, firstDedup_concat]
    by_cases h : p.2 ∈ ps.map (·.2)
    · rw [if_pos h,
        alistAdd_map_mem _ _ _ ((mem_firstDedup _ _).2 h) (firstDedup_nodup _)]
      refine List.map_congr_left ?_
      intro a _
      by_cases hax : a = p.2 <;>
        simp [hax, List.count_append, List.count_singleton]
    · rw [if_neg h,
        alistAdd_map_not_mem _ _ _ (fun hm => h ((mem_firstDedup _ _).1 hm)),
        List.map_append]
      congr 1
      · refine List.map_congr_left ?_
        intro a ha
        have hax : a ≠ p.2 := fun he => h (he ▸ (mem_firstDedup _ _).1 ha)
        simp [List.count_append, List.count_singleton, hax]
      · simp [List.count_append, List.count_singleton,
          List.count_eq_zero_of_not_mem h]

/-- The fold inside `pyMaxKey` returns the first entry of maximal count:
the scanned list splits into a strictly-smaller prefix, the winner, and
a no-larger suffix. -/
theorem foldBest_decomp (L : List (Nat × Nat)) (b₀ : Nat × Nat) :
    ∃ L1 L2,
      b₀ :: L =
        L1 ++ (L.foldl (fun best p => if p.2 > best.2 then p else best) b₀) :: L2 ∧
      (∀ e ∈ L1, e.2 < (L.foldl (fun best p => if p.2 > best.2 then p else best) b₀).2) ∧
      (∀ e ∈ L2, e.2 ≤ (L.foldl (fun best p => if p.2 > best.2 then p else best) b₀).2) := by
  induction L generalizing b₀ with
  | nil =>
    exact ⟨[], [], rfl, by simp, by simp⟩
  | cons p rest ih =>
    simp only [List.foldl_cons]
    by_cases h : p.2 > b₀.2
    · rw [if_pos h]
      rcases ih p with ⟨L1, L2, heq, hlt, hle⟩
      refine ⟨b₀ :: L1, L2, by rw [List.cons_append, ← heq], ?_, hle⟩
      intro e he
      rcases List.mem_cons.1 he with h1 | h1
      · subst h1
        rcases L1 with _ | ⟨q, L1'⟩
        · have hpr : p = (rest.foldl (fun best p => if p.2 > best.2 then p else best) p) := by
            simpa using congrArg (fun l => l.headI) heq
          have := congrArg Prod.snd hpr
          simp only at this
          omega
        · have hq : p = q := by simpa using congrArg (fun l => l.headI) heq
          have := hlt q (List.mem_cons_self _ _)
          rw [← hq] at this
          omega
      · exact hlt e h1
    · rw [if_neg h]
      rcases ih b₀ with ⟨L1, L2, heq, hlt, hle⟩
      rcases L1 with _ | ⟨q, L1'⟩
      · have hr : b₀ = (rest.foldl (fun best p => if p.2 > best.2 then p else best) b₀) := by
          simpa using congrArg (fun l => l.headI) heq
        have htail : rest = L2 := by simpa using congrArg List.tail heq
        refine ⟨[], p :: rest, by rw [← hr]; simp, by simp, ?_⟩
        intro e he
        have hr2 := congrArg Prod.snd hr
        simp only at hr2
        rcases List.mem_cons.1 he with h1 | h1
        · subst h1
          omega
        · exact htail ▸ hle e (htail ▸ h1)
      · have hq : b₀ = q := by simpa using congrArg (fun l => l.headI) heq
        have htail : rest = L1' ++
            (rest.foldl (fun best p => if p.2 > best.2 then p else best) b₀) :: L2 := by
          simpa using congrArg List.tail heq
        refine ⟨b₀ :: p :: L1', L2, by rw [List.cons_append, List.cons_append, ← htail],
          ?_, hle⟩
        have hb0 : b₀.2 < (rest.foldl (fun best p => if p.2 > best.2 then p else best) b₀).2 := by
          have := hlt q (List.mem_cons_self _ _)
          rwa [← hq] at this
        intro e he
        rcases List.mem_cons.1 he with h1 | h1
        · subst h1; exact hb0
        · rcases List.mem_cons.1 h1 with h2 | h2
          · subst h2; omega
          · exact hlt e (List.mem_cons_of_mem _ h2)

/-- `pyMaxKey` on the counts dict of an observation list `il` returns
the mode of `il`; ties go to the index observed first. -/
theorem pyMaxKey_mode (il : List Nat) (hne : il ≠ []) :
    pyMaxKey ((firstDedup il).map (fun k => (k, il.count k))) ∈ il ∧
    (∀ j ∈ il, il.count j ≤
      il.count (pyMaxKey ((firstDedup il).map (fun k => (k, il.count k))))) ∧
    (∀ j ∈ il, il.count j =
        il.count (pyMaxKey ((firstDedup il).map (fun k => (k, il.count k)))) →
      il.indexOf (pyMaxKey ((firstDedup il).map (fun k => (k, il.count k)))) ≤
        il.indexOf j) := by
  rcases hkds : firstDedup il with _ | ⟨k₀, krest⟩
  · exfalso
    rcases List.exists_mem_of_ne_nil il hne with ⟨a, ha⟩
    have := (mem_firstDedup il a).2 ha
    rw [hkds] at this
    simp at this
  have hmemkds : ∀ k, k ∈ k₀ :: krest → k ∈ il := by
    intro k hk
    exact (mem_firstDedup il k).1 (hkds ▸ hk)
  set f : Nat → Nat × Nat := fun k => (k, il.count k) with hf
  set r := ((krest.map f).foldl (fun best p => if p.2 > best.2 then p else best) (f k₀))
    with hr
  have hpy : pyMaxKey ((k₀ :: krest).map f) = r.1 := by
    rw [List.map_cons, pyMaxKey]
  rcases foldBest_decomp (krest.map f) (f k₀) with ⟨L1, L2, heq, hlt, hle⟩
  rw [← hr] at heq hlt hle
  have hcounts : (k₀ :: krest).map f = L1 ++ r :: L2 := by
    rw [List.map_cons, heq]
  have hrmem : r ∈ (k₀ :: krest).map f := by
    rw [hcounts]
    exact List.mem_append.2 (Or.inr (List.mem_cons_self _ _))
  rcases List.mem_map.1 hrmem with ⟨k, hk, hkr⟩
  have hr1 : r.1 = k := by rw [← hkr]
  have hr2 : r.2 = il.count k := by rw [← hkr]
  have hrcount : il.count r.1 = r.2 := by rw [hr1, hr2]
  have hrmem_il : r.1 ∈ il := hr1 ▸ hmemkds k hk
  have hentry : ∀ j ∈ il, (j, il.count j) ∈ (k₀ :: krest).map f := by
    intro j hj
    refine List.mem_map.2 ⟨j, ?_, rfl⟩
    have := (mem_firstDedup il j).2 hj
    rwa [hkds] at this
  have hcount_le : ∀ j ∈ il, il.count j ≤ r.2 := by
    intro j hj
    have hjk := hentry j hj
    rw [hcounts] at hjk
    rcases List.mem_append.1 hjk with h1 | h1
    · exact le_of_lt (hlt _ h1)
    · rcases List.mem_cons.1 h1 with h2 | h2
      · rw [← h2]
      · exact hle _ h2
  have hpair : ((k₀ :: krest).map f).Pairwise
      (fun a b => il.indexOf a.1 < il.indexOf b.1) := by
    refine List.pairwise_map.2 ?_
    have := firstDedup_pairwise_indexOf il
    rwa [hkds] at this
  rw [hpy]
  refine ⟨hrmem_il, ?_, ?_⟩
  · intro j hj
    rw [hrcount]
    exact hcount_le j hj
  · intro j hj htie
    rw [hrcount] at htie
    have hjk := hentry j hj
    rw [hcounts] at hjk
    rcases List.mem_append.1 hjk with h1 | h1
    · have := hlt _ h1
      simp only at this
      omega
    · rcases List.mem_cons.1 h1 with h2 | h2
      · have : j = r.1 := by
          have := congrArg Prod.fst h2
          simpa using this
        rw [this]
      · have hsub : (r :: L2).Sublist ((k₀ :: krest).map f) := by
          rw [hcounts]
          exact List.sublist_append_right L1 (r :: L2)
        have hpair2 := hpair.sublist hsub
        exact le_of_lt ((List.pairwise_cons.1 hpair2).1 _ h2)

theorem colMap_keys_nodup (clusters : List HeaderCluster) :
    ((colMapOf clusters).map (·.1)).Nodup := by
  rw [colMapOf]
  generalize variantPairs clusters = pairs
  have : ∀ (acc : List (String × List (String × Nat))),
      (acc.map (·.1)).Nodup →
      ((pairs.foldl (fun acc p => alistAppend acc p.1 p.2) acc).map (·.1)).Nodup := by
    induction pairs with
    | nil => intro acc h; exact h
    | cons p rest ih =>
      intro acc h
      exact ih _ (alistAppend_keys_nodup acc h p.1 p.2)
  exact this [] (by simp)

/-- Every group of `col_map` holds exactly the positions of its
canonical name from the variant stream, in order, and is non-empty. -/
theorem colMap_group_char (clusters : List HeaderCluster) (c : String)
    (ps : List (String × Nat)) (hmem : (c, ps) ∈ colMapOf clusters) :
    ps = ((variantPairs clusters).filter (fun p => p.1 = c)).map (·.2) ∧
    ps ≠ [] := by
  have hget : alistGet (colMapOf clusters) c = some ps :=
    alist_keys_nodup_mem _ (colMap_keys_nodup clusters) _ _ hmem
  rw [colMapOf, alistGet_foldl_alistAppend] at hget
  simp only [alistGet, optApp] at hget
  rcases hsel : (variantPairs clusters).filter (fun p => p.1 = c) with _ | ⟨q, qs⟩
  · rw [hsel] at hget
    simp at hget
  · rw [hsel] at hget
    simp only [List.map_cons] at hget
    refine ⟨?_, ?_⟩
    · rw [hsel]
      exact (Option.some_injective _ hget).symm
    · intro hnil
      rw [hnil] at hget
      exact (List.cons_ne_nil _ _) (Option.some_injective _ hget)

/-- Index projection of the filtered variant stream =
the observation list of the canonical name. -/
theorem variantPairs_filter_obs (clusters : List HeaderCluster) (c : String) :
    ((((variantPairs clusters).filter (fun p => p.1 = c)).map (·.2)).map (·.2)) =
      observationsOf clusters c := by
  induction clusters with
  | nil => simp [variantPairs, observationsOf]
  | cons cl rest ih =>
    have hvp : variantPairs (cl :: rest) =
        cl.variants.map
          (fun v => (cl.canonical_name, (v.file_path, v.column_index))) ++
        variantPairs rest := by
      simp [variantPairs]
    rw [hvp, List.filter_append, List.map_append, List.map_append, ih]
    by_cases hc : cl.canonical_name = c
    · have hfil : (cl.variants.map
          (fun v => (cl.canonical_name, (v.file_path, v.column_index)))).filter
            (fun p => p.1 = c) =
          cl.variants.map
            (fun v => (cl.canonical_name, (v.file_path, v.column_index))) := by
        refine List.filter_eq_self.2 ?_
        intro p hp
        rcases List.mem_map.1 hp with ⟨v, _, hv⟩
        simp [← hv, hc]
      rw [hfil]
      have hobs : observationsOf (cl :: rest) c =
          cl.variants.map (·.column_index) ++ observationsOf rest c := by
        simp [observationsOf, List.filter_cons, hc]
      rw [hobs]
      congr 1
      simp [List.map_map, Function.comp]
    · have hfil : (cl.variants.map
          (fun v => (cl.canonical_name, (v.file_path, v.column_index)))).filter
            (fun p => p.1 = c) = [] := by
        refine List.filter_eq_nil_iff.2 ?_
        intro p hp
        rcases List.mem_map.1 hp with ⟨v, _, hv⟩
        simp [← hv, hc]
      have hobs : observationsOf (cl :: rest) c = observationsOf rest c := by
        simp [observationsOf, List.filter_cons, hc]
      rw [hfil, hobs]
      simp

/-- Every entry of `detect_offsets` arises from one position of one
`col_map` group via `mkEntry`. -/
theorem detectOffsets_mem (clusters : List HeaderCluster)
    (profiles : Option (List ColumnProfileResult)) (e : SchemaMappingEntry)
    (he : e ∈ detectOffsets clusters profiles) :
    ∃ g ∈ colMapOf clusters, ∃ pos ∈ g.2,
      e = mkEntry (buildProfileLookup (profiles.getD []))
        g.1 ((alistGet (clusterProfilesOf clusters) g.1).getD [])
        (pyMaxKey (buildIndexCounts g.2)) pos := by
  rw [detectOffsets] at he
  rcases mem_foldl_append _ _ _ _ he with h | ⟨g, hg, hge⟩
  · simp at h
  · rcases List.mem_map.1 hge with ⟨pos, hpos, hpe⟩
    exact ⟨g, hg, pos, hpos, hpe.symm⟩

theorem mem_observationsOf (clusters : List HeaderCluster) (c : String)
    (j : Nat) (hj : j ∈ observationsOf clusters c) :
    ∃ cl ∈ clusters, cl.canonical_name = c ∧
      ∃ v ∈ cl.variants, v.column_index = j := by
  simp only [observationsOf, List.mem_flatMap, List.mem_filter, List.mem_map,
    decide_eq_true_eq] at hj
  rcases hj with ⟨cl, ⟨hcl, hc⟩, v, hv, hvj⟩
  exact ⟨cl, hcl, hc, v, hv, hvj⟩

/-- Common bridge: every entry of `detect_offsets` carries the
`pyMaxKey` of the counts of its canonical name's observation list. -/
theorem detectOffsets_entry_target (clusters : List HeaderCluster)
    (profiles : Option (List ColumnProfileResult)) (e : SchemaMappingEntry)
    (he : e ∈ detectOffsets clusters profiles) :
    observationsOf clusters e.canonical_name ≠ [] ∧
    e.target_index =
      pyMaxKey ((firstDedup (observationsOf clusters e.canonical_name)).map
        (fun j => (j, (observationsOf clusters e.canonical_name).count j))) ∧
    e.source_index ∈ observationsOf clusters e.canonical_name ∧
    (e.offset_from_index = none ↔
      (e.source_index : Int) - (e.target_index : Int) = 0) := by
  rcases detectOffsets_mem clusters profiles e he with ⟨⟨c, ps⟩, hg, pos, hpos, hpe⟩
  rcases colMap_group_char clusters c ps hg with ⟨hps, hne⟩
  have hobs : observationsOf clusters c = ps.map (·.2) := by
    rw [← variantPairs_filter_obs clusters c, ← hps]
  have hcanon : e.canonical_name = c := by rw [hpe]; rfl
  have htarget : e.target_index = pyMaxKey (buildIndexCounts ps) := by
    rw [hpe]; rfl
  have hsource : e.source_index = pos.2 := by rw [hpe]; rfl
  have hmapne : ps.map (·.2) ≠ [] := by
    intro h
    exact hne (List.map_eq_nil_iff.1 h)
  refine ⟨by rw [hcanon, hobs]; exact hmapne, ?_, ?_, ?_⟩
  · rw [hcanon, hobs, htarget, buildIndexCounts_eq]
  · rw [hcanon, hobs, hsource]
    exact List.mem_map.2 ⟨pos, hpos, rfl⟩
  · rw [hpe]
    simp only [mkEntry]
    by_cases h : (pos.2 : Int) - (pyMaxKey (buildIndexCounts ps) : Int) = 0
    · simp [h]
    · simp [h]

/-- Counterexample to C2 as stated: for the single cluster `"c"` whose
variants sit at indexes `[2, 1]`, both indexes are tied for most
frequent, yet `detect_offsets` assigns `target_index = 2` (the
first-observed index), not the lowest index `1`. -/
theorem detect_offsets_lowest_tie_cex :
    (detectOffsets [⟨"c", [⟨"fa", 2, []⟩, ⟨"fb", 1, []⟩]⟩] none).map
        (·.target_index) = [2, 2] ∧
    observationsOf [⟨"c", [⟨"fa", 2, []⟩, ⟨"fb", 1, []⟩]⟩] "c" = [2, 1] ∧
    (observationsOf [⟨"c", [⟨"fa", 2, []⟩, ⟨"fb", 1, []⟩]⟩] "c").count 1 =
      (observationsOf [⟨"c", [⟨"fa", 2, []⟩, ⟨"fb", 1, []⟩]⟩] "c").count 2 ∧
    (1 : Nat) < 2 := by
  refine ⟨by decide, by decide, by decide, by decide⟩

/-- C2 (amended): every entry's `target_index` is a most frequent source
index among the canonical name's observations, but ties are broken by
the earliest first observation (Python `max` over dict insertion order),
not by the lowest index. -/
theorem detect_offsets_target_first_mode (clusters : List HeaderCluster)
    (profiles : Option (List ColumnProfileResult)) :
    ∀ e ∈ detectOffsets clusters profiles,
      e.target_index ∈ observationsOf clusters e.canonical_name ∧
      (∀ j ∈ observationsOf clusters e.canonical_name,
        (observationsOf clusters e.canonical_name).count j ≤
          (observationsOf clusters e.canonical_name).count e.target_index) ∧
      (∀ j ∈ observationsOf clusters e.canonical_name,
        (observationsOf clusters e.canonical_name).count j =
          (observationsOf clusters e.canonical_name).count e.target_index →
        (observationsOf clusters e.canonical_name).indexOf e.target_index ≤
          (observationsOf clusters e.canonical_name).indexOf j) := by
  intro e he
  rcases detectOffsets_entry_target clusters profiles e he with
    ⟨hne, htarget, _, _⟩
  rcases pyMaxKey_mode (observationsOf clusters e.canonical_name) hne with
    ⟨hmem, hle, htie⟩
  rw [htarget]
  exact ⟨hmem, hle, htie⟩

/-- Witness for C2 (amended): on the tied two-variant cluster, the first
emitted entry targets index 2, which is indeed a mode of `[2, 1]` with
the earliest first occurrence. -/
theorem detect_offsets_target_first_mode_witness :
    (⟨"fa", 2, "c", 2, none, none, none⟩ : SchemaMappingEntry) ∈
      detectOffsets [⟨"c", [⟨"fa", 2, []⟩, ⟨"fb", 1, []⟩]⟩] none ∧
    (2 : Nat) ∈
      observationsOf [⟨"c", [⟨"fa", 2, []⟩, ⟨"fb", 1, []⟩]⟩] "c" := by
  have hmem : (⟨"fa", 2, "c", 2, none, none, none⟩ : SchemaMappingEntry) ∈
      detectOffsets [⟨"c", [⟨"fa", 2, []⟩, ⟨"fb", 1, []⟩]⟩] none := by decide
  have h := detect_offsets_target_first_mode
    [⟨"c", [⟨"fa", 2, []⟩, ⟨"fb", 1, []⟩]⟩] none _ hmem
  exact ⟨hmem, h.1⟩

/-- C7: if every variant occurrence of a canonical name `c` sits at the
same source index `k`, then every emitted entry for `c` has
`target_index = k` and `offset_from_index = None`; in general
`offset_from_index` is `None` exactly when
`source_index − target_index = 0`. -/
theorem detect_offsets_stable_column (clusters : List HeaderCluster)
    (profiles : Option (List ColumnProfileResult)) (c : String) (k : Nat)
    (hall : ∀ cl ∈ clusters, cl.canonical_name = c →
      ∀ v ∈ cl.variants, v.column_index = k) :
    (∀ e ∈ detectOffsets clusters profiles, e.canonical_name = c →
      e.target_index = k ∧ e.offset_from_index = none) ∧
    (∀ e ∈ detectOffsets clusters profiles,
      (e.offset_from_index = none ↔
        (e.source_index : Int) - (e.target_index : Int) = 0)) := by
  have hobs_all : ∀ j ∈ observationsOf clusters c, j = k := by
    intro j hj
    rcases mem_observationsOf clusters c j hj with ⟨cl, hcl, hc, v, hv, hvj⟩
    rw [← hvj]
    exact hall cl hcl hc v hv
  constructor
  · intro e he hec
    rcases detectOffsets_entry_target clusters profiles e he with
      ⟨hne, htarget, hsource, hoffs⟩
    rcases pyMaxKey_mode (observationsOf clusters e.canonical_name) hne with
      ⟨hmem, _, _⟩
    have hmem2 : e.target_index ∈ observationsOf clusters e.canonical_name := by
      rw [htarget]; exact hmem
    have htk : e.target_index = k := hobs_all _ (hec ▸ hmem2)
    have hsk : e.source_index = k := hobs_all _ (hec ▸ hsource)
    refine ⟨htk, hoffs.2 ?_⟩
    rw [htk, hsk]
    ring
  · intro e he
    exact (detectOffsets_entry_target clusters profiles e he).2.2.2

/-- Witness for C7: a cluster whose two variants both sit at index 1
yields entries with `target_index = 1` and no offset. -/
theorem detect_offsets_stable_column_witness :
    (⟨"fa", 1, "c", 1, none, none, none⟩ : SchemaMappingEntry) ∈
      detectOffsets [⟨"c", [⟨"fa", 1, []⟩, ⟨"fb", 1, []⟩]⟩] none ∧
    (1 : Nat) = 1 ∧
    (Option.none : Option Int) = none := by
  have hmem : (⟨"fa", 1, "c", 1, none, none, none⟩ : SchemaMappingEntry) ∈
      detectOffsets [⟨"c", [⟨"fa", 1, []⟩, ⟨"fb", 1, []⟩]⟩] none := by decide
  have h := (detect_offsets_stable_column
    [⟨"c", [⟨"fa", 1, []⟩, ⟨"fb", 1, []⟩]⟩] none "c" 1
    (by intro cl hcl hc v hv
        simp only [List.mem_singleton] at hcl
        subst hcl
        simp only [List.mem_cons] at hv
        rcases hv with h | h | h
        · simp [h]
        · simp [h]
        · simp at h)).1 _ hmem rfl
  exact ⟨hmem, h.1, h.2⟩

/-! ## Spill buffer (src/core/materialization/runner.py, class
`SpillBuffer`)

The spill file holds one JSON line `{"values": [...],
"observed_length": n}` per row; serializing a `(List String × Nat)` pair
to JSON and parsing it back is lossless, so the file contents are
modelled as the row list itself.  The writer is modelled by the ordered
log of rows it received via `write`; the on-disk size consulted for
`bytes_spilled` is an arbitrary size function `fsize`. -/

/-- `NormalizedRow` dataclass. -/
structure NormalizedRow where
  values : List String
  observed_length : Nat
  deriving Repr, DecidableEq

/-- `SpillMetrics` dataclass from `common/models.py`. -/
structure SpillMetrics where
  spills : Nat := 0
  rows_spilled : Nat := 0
  bytes_spilled : Nat := 0
  max_buffer_rows : Nat := 0
  deriving Repr, DecidableEq

/-- A `SpillBuffer` together with the log of rows its writer received. -/
structure SpillBuffer where
  threshold : Nat
  buffer : List NormalizedRow := []
  telemetry : SpillMetrics := {}
  writerLog : List NormalizedRow := []
  deriving Repr, DecidableEq

/-- `SpillBuffer.__init__`: clamp the threshold to ≥ 1, empty buffer. -/
def mkSpillBuffer (threshold : Nat) : SpillBuffer :=
  { threshold := max 1 threshold }

/-- `SpillBuffer._spill`: serialize the buffer to a spill file, bump the
telemetry, clear the buffer, then `_drain_spill` feeds every
deserialized row to the writer and unlinks the file. -/
def spillOp (fsize : List NormalizedRow → Nat) (b : SpillBuffer) : SpillBuffer :=
  { b with
    buffer := []
    telemetry :=
      { b.telemetry with
        spills := b.telemetry.spills + 1
        rows_spilled := b.telemetry.rows_spilled + b.buffer.length
        bytes_spilled := b.telemetry.bytes_spilled + fsize b.buffer }
    writerLog := b.writerLog ++ b.buffer }

/-- `SpillBuffer.push`: append to the buffer, update `max_buffer_rows`,
and spill when the buffer reaches the threshold. -/
def pushRow (fsize : List NormalizedRow → Nat) (b : SpillBuffer)
    (row : NormalizedRow) : SpillBuffer :=
  let b := { b with buffer := b.buffer ++ [row] }
  let b := { b with telemetry :=
    { b.telemetry with
      max_buffer_rows := max b.telemetry.max_buffer_rows b.buffer.length } }
  if b.buffer.length ≥ b.threshold then spillOp fsize b else b

/-- `SpillBuffer.flush`: drain the buffer straight to the writer
(no spill file). -/
def flushBuffer (b : SpillBuffer) : SpillBuffer :=
  if b.buffer = [] then b
  else { b with buffer := [], writerLog := b.writerLog ++ b.buffer }

/-- `SpillBuffer.close` = `flush`. -/
def closeBuffer (b : SpillBuffer) : SpillBuffer := flushBuffer b

theorem pushRow_log (fsize : List NormalizedRow → Nat) (b : SpillBuffer)
    (row : NormalizedRow) :
    (pushRow fsize b row).writerLog ++ (pushRow fsize b row).buffer =
      b.writerLog ++ b.buffer ++ [row] ∧
    (pushRow fsize b row).threshold = b.threshold := by
  simp only [pushRow, spillOp]
  split_ifs <;> simp [List.append_assoc]

theorem foldl_pushRow_log (fsize : List NormalizedRow → Nat)
    (rows : List NormalizedRow) :
    ∀ b : SpillBuffer,
      (rows.foldl (pushRow fsize) b).writerLog ++
        (rows.foldl (pushRow fsize) b).buffer =
      b.writerLog ++ b.buffer ++ rows := by
  induction rows with
  | nil => intro b; simp
  | cons r rest ih =>
    intro b
    rw [List.foldl_cons, ih]
    rw [(pushRow_log fsize b r).1]
    simp

/-- C9: pushing any sequence of rows through a spill buffer (threshold
≥ 1) and closing it hands the writer exactly the pushed rows, each once,
in push order, leaving the in-memory buffer empty — spill-buffered
writing refines writing each row directly. -/
theorem spill_buffer_refinement (fsize : List NormalizedRow → Nat)
    (threshold : Nat) (_hthr : 1 ≤ threshold) (rows : List NormalizedRow) :
    (closeBuffer (rows.foldl (pushRow fsize) (mkSpillBuffer threshold))).writerLog
      = rows ∧
    (closeBuffer (rows.foldl (pushRow fsize) (mkSpillBuffer threshold))).buffer
      = [] := by
  have hlog := foldl_pushRow_log fsize rows (mkSpillBuffer threshold)
  rw [closeBuffer, flushBuffer]
  by_cases h : (rows.foldl (pushRow fsize) (mkSpillBuffer threshold)).buffer = []
  · rw [if_pos h]
    rw [h, List.append_nil] at hlog
    exact ⟨by simpa [mkSpillBuffer] using hlog, h⟩
  · rw [if_neg h]
    exact ⟨by simpa [mkSpillBuffer] using hlog, rfl⟩

/-- Witness for C9: threshold 1 (every push spills) on two concrete
rows. -/
theorem spill_buffer_refinement_witness :
    (closeBuffer ([⟨["a", "b"], 2⟩, ⟨["c"], 1⟩].foldl
        (pushRow (fun _ => 0)) (mkSpillBuffer 1))).writerLog =
      [⟨["a", "b"], 2⟩, ⟨["c"], 1⟩] ∧
    (closeBuffer ([⟨["a", "b"], 2⟩, ⟨["c"], 1⟩].foldl
        (pushRow (fun _ => 0)) (mkSpillBuffer 1))).buffer = [] :=
  spill_buffer_refinement (fun _ => 0) 1 (by decide)
    [⟨["a", "b"], 2⟩, ⟨["c"], 1⟩]

/-! ## Materialization dedup
(src/core/materialization/runner.py, `MaterializationJobRunner.run` /
`_process_schema`)

`run` hands each schema to its own task of a `ThreadPoolExecutor`
(`max_workers = min(2, max_parallel_files)` by default, or a caller
override), all sharing one plain `global_seen_lines` set with no lock.
Each schema task processes its `(file_path, line_number)` keys with a
thread-local `seen_lines` set.  The key-processing code
(runner.py:342-351) is straight-line: a read-only check phase (lines
342-346: skip if the key is in the local set, or in the supplied global
set) followed by a commit phase (lines 347-351: add to the local set,
add to the global set, emit the row via `spooler.push`).  The source
takes no lock between the global membership test (line 345) and the
global add (line 349), so another schema thread may interleave there.

The model therefore gives each thread two separate atomic micro-steps per
key — check, then commit — and lets a schedule interleave threads
arbitrarily between them.  (Interleavings inside a phase touch no
cross-thread-visible read-check pair: the check only reads, the commit
only writes, and the local set is private to its thread, so this
granularity realizes every emission multiset the source can produce.) -/

/-- `(str(block.file_path), line_number)`. -/
abbrev DedupKey := String × Nat

/-- One schema task of `run`'s pool: its schema id, the keys it has not
yet looked at, the key it has checked but not yet committed (the window
between runner.py line 345 and line 349), and its thread-local
`seen_lines`. -/
structure SchemaThread where
  schema : String
  queue : List DedupKey := []
  pending : Option DedupKey := none
  seen : List DedupKey := []
  deriving Repr, DecidableEq

/-- The shared state of a run: the thread pool, the optional shared
`global_seen_lines` set, and the emission log. -/
structure RunState where
  threads : List SchemaThread
  globalSeen : Option (List DedupKey)
  emitted : List (String × DedupKey) := []
  deriving Repr, DecidableEq

/-- One atomic micro-step of thread `i`: if it holds a checked key,
commit it (runner.py:347-351 — add to the local set, add to the global
set when present, emit); otherwise check its next key
(runner.py:342-346 — drop it if the local or the shared global set
already has it, else mark it pending). -/
def microStep (s : RunState) (i : Nat) : RunState :=
  match s.threads.get? i with
  | none => s
  | some t =>
    match t.pending with
    | some k =>
      let t2 : SchemaThread := { t with pending := none, seen := t.seen ++ [k] }
      { threads := s.threads.set i t2
        globalSeen :=
          match s.globalSeen with
          | some g => some (g ++ [k])
          | none => none
        emitted := s.emitted ++ [(t.schema, k)] }
    | none =>
      match t.queue with
      | [] => s
      | k :: rest =>
        if k ∈ t.seen then
          { s with threads := s.threads.set i ({ t with queue := rest }) }
        else if s.globalSeen.isSome ∧ k ∈ s.globalSeen.getD [] then
          { s with threads := s.threads.set i ({ t with queue := rest }) }
        else
          let t2 : SchemaThread := { t with queue := rest, pending := some k }
          { s with threads := s.threads.set i t2 }

/-- A whole run under a given thread schedule. -/
def microRun (init : RunState) (schedule : List Nat) : RunState :=
  schedule.foldl microStep init

/-- The initial pool `run` builds: one thread per schema (distinct
schema ids), empty local sets, a fresh shared global set when
`useGlobal` (as in `run`; a bare `_process_schema` call passes none). -/
def initConfig (specs : List (String × List DedupKey)) (useGlobal : Bool) :
    RunState :=
  { threads := specs.map (fun p => { schema := p.1, queue := p.2 })
    globalSeen := if useGlobal then some [] else none
    emitted := [] }

/-- The race on the shared global set, exactly as the source allows it:
schemas `A` and `B` both hold source line `("f.csv", 7)`; under the
schedule check-A, check-B, commit-A, commit-B both threads pass the
global membership test of runner.py:345 before either reaches the add
of line 349, and the run emits the same `(file_path, line_number)` key
twice even though the shared global set was supplied. -/
theorem dedup_global_race_cex :
    (microRun (initConfig [("A", [("f.csv", 7)]), ("B", [("f.csv", 7)])] true)
        [0, 1, 0, 1]).emitted =
      [("A", ("f.csv", 7)), ("B", ("f.csv", 7))] ∧
    ((microRun (initConfig [("A", [("f.csv", 7)]), ("B", [("f.csv", 7)])] true)
        [0, 1, 0, 1]).emitted.filter (fun p => p.2 = ("f.csv", 7))).length = 2 ∧
    (microRun (initConfig [("A", [("f.csv", 7)]), ("B", [("f.csv", 7)])] true)
        [0, 1, 0, 1]).globalSeen.isSome = true := by
  refine ⟨by decide, by decide, by decide⟩

/-- The per-thread part of the dedup invariant: everything a thread has
emitted is in its local set, and a checked-but-uncommitted key is in
neither its local set nor the log. -/
def ThreadInv (emitted : List (String × DedupKey)) (t : SchemaThread) : Prop :=
  (∀ k, (t.schema, k) ∈ emitted → k ∈ t.seen) ∧
  (∀ k, t.pending = some k → k ∉ t.seen ∧ (t.schema, k) ∉ emitted)

/-- The run invariant: thread schemas are pairwise distinct, every
thread satisfies its local invariant, and no `(schema, key)` pair is
logged twice. -/
def RunInv (s : RunState) : Prop :=
  (∀ i j ti tj, i ≠ j → s.threads.get? i = some ti →
    s.threads.get? j = some tj → ti.schema ≠ tj.schema) ∧
  (∀ i t, s.threads.get? i = some t → ThreadInv s.emitted t) ∧
  (∀ sch k, s.emitted.count (sch, k) ≤ 1)

theorem nodup_get?_ne {α : Type} {L : List α} (hnd : L.Nodup) {i j : Nat}
    (hij : i ≠ j) {a b : α} (ha : L.get? i = some a) (hb : L.get? j = some b) :
    a ≠ b := by
  rcases List.get?_eq_some.1 ha with ⟨hi, hga⟩
  rcases List.get?_eq_some.1 hb with ⟨hj, hgb⟩
  intro hab
  have hinj := List.nodup_iff_injective_get.1 hnd
  have : (⟨i, hi⟩ : Fin L.length) = ⟨j, hj⟩ := hinj (by rw [hga, hgb, hab])
  exact hij (congrArg Fin.val this)

/-- Replacing thread `i` by a thread with the same schema that keeps its
local invariant preserves the run invariant when nothing else changes. -/
theorem setThread_inv (s : RunState) (i : Nat) (t t' : SchemaThread)
    (hget : s.threads.get? i = some t) (hschema : t'.schema = t.schema)
    (hTI : ThreadInv s.emitted t') (hinv : RunInv s) :
    RunInv { s with threads := s.threads.set i t' } := by
  rcases hinv with ⟨hdist, hthread, hcount⟩
  have hlen : i < s.threads.length := by
    by_contra hle
    rw [List.get?_eq_none.2 (by omega)] at hget
    exact Option.noConfusion hget
  have hsetget : ∀ j, (s.threads.set i t').get? j =
      if j = i then some t' else s.threads.get? j := by
    intro j
    by_cases hj : j = i
    · subst hj
      rw [if_pos rfl]
      exact List.get?_set_eq_of_lt t' hlen
    · rw [if_neg hj]
      exact List.get?_set_ne t' s.threads (fun h => hj h.symm)
  refine ⟨?_, ?_, hcount⟩
  · intro a b ta tb hab hga hgb
    simp only at hga hgb
    rw [hsetget] at hga hgb
    by_cases ha : a = i <;> by_cases hb : b = i
    · exact absurd (ha.trans hb.symm) hab
    · rw [if_pos ha] at hga
      rw [if_neg hb] at hgb
      injection hga with hga
      rw [← hga, hschema]
      exact hdist i b t tb (fun h => hb h.symm) hget hgb
    · rw [if_neg ha] at hga
      rw [if_pos hb] at hgb
      injection hgb with hgb
      rw [← hgb, hschema]
      exact hdist a i ta t ha hga hget
    · rw [if_neg ha] at hga
      rw [if_neg hb] at hgb
      exact hdist a b ta tb hab hga hgb
  · intro j u hgu
    simp only at hgu
    rw [hsetget] at hgu
    by_cases hj : j = i
    · rw [if_pos hj] at hgu
      injection hgu with hgu
      rw [← hgu]
      exact hTI
    · rw [if_neg hj] at hgu
      exact hthread j u hgu

/-- Every micro-step preserves the run invariant; in particular an
emission only happens for a pending key that its thread has proven
absent from its local set and (contrapositively) from its own log. -/
theorem microStep_inv (s : RunState) (i : Nat) (hinv : RunInv s) :
    RunInv (microStep s i) := by
  rcases hget : s.threads.get? i with _ | t
  · simp only [microStep, hget]
    exact hinv
  rcases hpend : t.pending with _ | k
  · rcases hq : t.queue with _ | ⟨k, rest⟩
    · simp only [microStep, hget, hpend, hq]
      exact hinv
    · simp only [microStep, hget, hpend, hq]
      rcases hinv.2.1 i t hget with ⟨hm, hp⟩
      by_cases h1 : k ∈ t.seen
      · rw [if_pos h1]
        exact setThread_inv s i t _ hget rfl
          ⟨hm, fun q hq2 => Option.noConfusion hq2⟩ hinv
      · rw [if_neg h1]
        by_cases h2 : s.globalSeen.isSome ∧ k ∈ s.globalSeen.getD []
        · rw [if_pos h2]
          exact setThread_inv s i t _ hget rfl
            ⟨hm, fun q hq2 => Option.noConfusion hq2⟩ hinv
        · rw [if_neg h2]
          refine setThread_inv s i t _ hget rfl ⟨hm, ?_⟩ hinv
          intro q hq2
          simp only at hq2
          injection hq2 with hq2
          rw [← hq2]
          exact ⟨h1, fun hmem => h1 (hm k hmem)⟩
  · simp only [microStep, hget, hpend]
    rcases hinv with ⟨hdist, hthread, hcount⟩
    rcases hthread i t hget with ⟨hm, hp⟩
    rcases hp k hpend with ⟨hknseen, hknem⟩
    have hlen : i < s.threads.length := by
      by_contra hle
      rw [List.get?_eq_none.2 (by omega)] at hget
      exact Option.noConfusion hget
    have hsetget : ∀ (u : SchemaThread) (j : Nat),
        (s.threads.set i u).get? j =
          if j = i then some u else s.threads.get? j := by
      intro u j
      by_cases hj : j = i
      · subst hj
        rw [if_pos rfl]
        exact List.get?_set_eq_of_lt u hlen
      · rw [if_neg hj]
        exact List.get?_set_ne u s.threads (fun h => hj h.symm)
    refine ⟨?_, ?_, ?_⟩
    · intro a b ta tb hab hga hgb
      simp only at hga hgb
      rw [hsetget] at hga hgb
      by_cases ha : a = i <;> by_cases hb : b = i
      · exact absurd (ha.trans hb.symm) hab
      · rw [if_pos ha] at hga
        rw [if_neg hb] at hgb
        injection hga with hga
        rw [← hga]
        exact hdist i b t tb (fun h => hb h.symm) hget hgb
      · rw [if_neg ha] at hga
        rw [if_pos hb] at hgb
        injection hgb with hgb
        rw [← hgb]
        exact hdist a i ta t ha hga hget
      · rw [if_neg ha] at hga
        rw [if_neg hb] at hgb
        exact hdist a b ta tb hab hga hgb
    · intro j u hgu
      simp only at hgu
      rw [hsetget] at hgu
      by_cases hj : j = i
      · rw [if_pos hj] at hgu
        injection hgu with hgu
        rw [← hgu]
        constructor
        · intro q hq2
          simp only [List.mem_append, List.mem_singleton] at hq2 ⊢
          rcases hq2 with hq2 | hq2
          · exact Or.inl (hm q hq2)
          · injection hq2 with _ hq2
            exact Or.inr hq2
        · intro q hq2
          simp only at hq2
          exact Option.noConfusion hq2
      · rw [if_neg hj] at hgu
        rcases hthread j u hgu with ⟨hmu, hpu⟩
        have hne : u.schema ≠ t.schema := hdist j i u t hj hgu hget
        constructor
        · intro q hq2
          simp only [List.mem_append, List.mem_singleton] at hq2
          rcases hq2 with hq2 | hq2
          · exact hmu q hq2
          · exact absurd (congrArg Prod.fst hq2) hne
        · intro q hq2
          rcases hpu q hq2 with ⟨hq3, hq4⟩
          refine ⟨hq3, ?_⟩
          simp only [List.mem_append, List.mem_singleton]
          rintro (hq5 | hq5)
          · exact hq4 hq5
          · exact hne (congrArg Prod.fst hq5)
    · intro sch q
      simp only [List.count_append]
      by_cases heq : (sch, q) = (t.schema, k)
      · have hc0 : s.emitted.count (sch, q) = 0 :=
          List.count_eq_zero_of_not_mem (heq ▸ hknem)
        rw [hc0]
        simp [heq, List.count_singleton]
      · have hone : List.count (sch, q) [(t.schema, k)] = 0 := by
          simp [List.count_singleton, heq]
        rw [hone]
        simpa using hcount sch q

theorem microRun_inv (schedule : List Nat) :
    ∀ s : RunState, RunInv s → RunInv (microRun s schedule) := by
  induction schedule with
  | nil => intro s h; exact h
  | cons i rest ih =>
    intro s h
    exact ih _ (microStep_inv s i h)

theorem initConfig_inv (specs : List (String × List DedupKey))
    (useGlobal : Bool) (hnd : (specs.map (·.1)).Nodup) :
    RunInv (initConfig specs useGlobal) := by
  refine ⟨?_, ?_, ?_⟩
  · intro a b ta tb hab hga hgb
    simp only [initConfig, List.get?_map] at hga hgb
    rcases hpa : specs.get? a with _ | pa
    · rw [hpa] at hga; exact Option.noConfusion hga
    rcases hpb : specs.get? b with _ | pb
    · rw [hpb] at hgb; exact Option.noConfusion hgb
    rw [hpa] at hga
    rw [hpb] at hgb
    injection hga with hga
    injection hgb with hgb
    rw [← hga, ← hgb]
    have ha1 : (specs.map (·.1)).get? a = some pa.1 := by
      rw [List.get?_map, hpa]; rfl
    have hb1 : (specs.map (·.1)).get? b = some pb.1 := by
      rw [List.get?_map, hpb]; rfl
    exact nodup_get?_ne hnd hab ha1 hb1
  · intro j u hgu
    simp only [initConfig, List.get?_map] at hgu
    rcases hpj : specs.get? j with _ | pj
    · rw [hpj] at hgu; exact Option.noConfusion hgu
    rw [hpj] at hgu
    injection hgu with hgu
    rw [← hgu]
    exact ⟨fun q hq => absurd hq (List.not_mem_nil _),
      fun q hq => Option.noConfusion hq⟩
  · intro sch q
    simp [initConfig]

/-- The per-schema half of the dedup claim survives every interleaving:
each schema's `seen_lines` set is private to its thread, so along any
schedule a `(schema, key)` pair is emitted at most once. -/
theorem dedup_per_schema_at_most_once (specs : List (String × List DedupKey))
    (useGlobal : Bool) (schedule : List Nat)
    (hnd : (specs.map (·.1)).Nodup) (sch : String) (key : DedupKey) :
    (microRun (initConfig specs useGlobal) schedule).emitted.count
      (sch, key) ≤ 1 :=
  (microRun_inv schedule _ (initConfig_inv specs useGlobal hnd)).2.2 sch key

/-! ## Type classifier (src/core/headers/type_inference.py)

Strings are modelled as `List Char`; `str.strip` removes whitespace on
both ends; the `re` patterns are embedded as explicit matchers over the
character list (`\d` and `\w` are modelled over ASCII, the alphabet the
patterns are used on).  The `value is None` guard of `classify_value`
has no counterpart: Lean strings are never `None`. -/

/-- The separator class (dot, slash, hyphen) of `_DATE_PATTERN`. -/
def isSepChar (c : Char) : Bool := c = '.' || c = '/' || c = '-'

/-- Python `\w` (ASCII): letters, digits, underscore. -/
def isWordChar (c : Char) : Bool := c.isAlphanum || c = '_'

/-- `str.strip()`. -/
def pyStrip (l : List Char) : List Char :=
  ((l.dropWhile Char.isWhitespace).reverse.dropWhile Char.isWhitespace).reverse

/-- `value.replace(",", ".")`. -/
def normComma (l : List Char) : List Char :=
  l.map (fun c => if c = ',' then '.' else c)

/-- `\d+` as a full match. -/
def digitsBody (l : List Char) : Bool := !l.isEmpty && l.all Char.isDigit

/-- `_INT_PATTERN.fullmatch`: `^[+-]?\d+$`. -/
def intMatch (l : List Char) : Bool :=
  match l with
  | [] => false
  | c :: rest => if c = '+' || c = '-' then digitsBody rest else digitsBody l

/-- The `[.,]` class of `_FLOAT_PATTERN`. -/
def isDotComma (c : Char) : Bool := c = '.' || c = ','

/-- Alternative `\d+[.,]\d+` of the float pattern (the digit run before
the separator is maximal because `[.,]` matches no digit). -/
def floatBodyA (l : List Char) : Bool :=
  match l.span Char.isDigit with
  | (a, sep :: b) =>
    !a.isEmpty && isDotComma sep && !b.isEmpty && b.all Char.isDigit
  | (_, []) => false

/-- Alternative `\d+\.\d*`. -/
def floatBodyB (l : List Char) : Bool :=
  match l.span Char.isDigit with
  | (a, sep :: b) => !a.isEmpty && sep = '.' && b.all Char.isDigit
  | (_, []) => false

/-- Alternative `\d*[.,]\d+`. -/
def floatBodyC (l : List Char) : Bool :=
  match l.span Char.isDigit with
  | (_, sep :: b) => isDotComma sep && !b.isEmpty && b.all Char.isDigit
  | (_, []) => false

/-- `_FLOAT_PATTERN.fullmatch`:
`^[+-]?(?:\d+[.,]\d+|\d+\.\d*|\d*[.,]\d+)$`. -/
def floatMatch (l : List Char) : Bool :=
  match l with
  | [] => false
  | c :: rest =>
    if c = '+' || c = '-' then floatBodyA rest || floatBodyB rest || floatBodyC rest
    else floatBodyA l || floatBodyB l || floatBodyC l

/-- Exactly `n` digits at offset `i`. -/
def allDigitsAt (l : List Char) (i n : Nat) : Bool :=
  ((l.drop i).take n).length = n && ((l.drop i).take n).all Char.isDigit

/-- A date separator (dot, slash, hyphen) at offset `i`. -/
def sepAt (l : List Char) (i : Nat) : Bool :=
  match l.get? i with
  | some c => isSepChar c
  | none => false

/-- `\b` immediately before a digit at offset `i`: the previous
character (if any) is a non-word character. -/
def boundaryBefore (l : List Char) (i : Nat) : Bool :=
  match i with
  | 0 => true
  | j + 1 =>
    match l.get? j with
    | some c => !isWordChar c
    | none => true

/-- `\b` immediately after a digit ending at offset `j`: the character
at `j` (if any) is a non-word character. -/
def boundaryAfter (l : List Char) (j : Nat) : Bool :=
  match l.get? j with
  | some c => !isWordChar c
  | none => true

/-- `_DATE_PATTERN` (one to four digits, a separator, one or two digits,
a separator, one to four digits, inside word boundaries) matching at
offset `i`, with the bounded repetitions tried explicitly. -/
def dateMatchAt (l : List Char) (i : Nat) : Bool :=
  (List.range 4).any (fun a =>
    let r1 := a + 1
    allDigitsAt l i r1 && sepAt l (i + r1) &&
    (List.range 2).any (fun b =>
      let r2 := b + 1
      allDigitsAt l (i + r1 + 1) r2 && sepAt l (i + r1 + 1 + r2) &&
      (List.range 4).any (fun c =>
        let r3 := c + 1
        allDigitsAt l (i + r1 + 1 + r2 + 1) r3 &&
        boundaryAfter l (i + r1 + 1 + r2 + 1 + r3))))

/-- `_DATE_PATTERN.search`: a match exists at some start offset. -/
def dateSearch (l : List Char) : Bool :=
  (List.range l.length).any (fun i => boundaryBefore l i && dateMatchAt l i)

/-- The five buckets of `classify_value`. -/
inductive Bucket where
  | empty | integer | float | date | text
  deriving Repr, DecidableEq

/-- `classify_value`: strip, then test blank, date pattern, integer
pattern, float pattern (on the comma-normalized string), else text —
in the source's order. -/
def classifyValue (s : List Char) : Bucket :=
  let cleaned := pyStrip s
  if cleaned.isEmpty then .empty
  else if dateSearch cleaned then .date
  else if intMatch cleaned then .integer
  else if floatMatch (normComma cleaned) then .float
  else .text

/-- The classification cascade in the order the spec states it: blank,
integer regex, float regex, date pattern, else text. -/
def claimClassify (s : List Char) : Bucket :=
  let cleaned := pyStrip s
  if cleaned.isEmpty then .empty
  else if intMatch cleaned then .integer
  else if floatMatch (normComma cleaned) then .float
  else if dateSearch cleaned then .date
  else .text

theorem isSepChar_not_digit {c : Char} (h : isSepChar c = true) :
    c.isDigit = false := by
  simp only [isSepChar, Bool.or_eq_true, decide_eq_true_eq] at h
  rcases h with (h | h) | h <;> subst h <;> decide

theorem sepAt_char {l : List Char} {j : Nat} (h : sepAt l j = true) :
    ∃ c, l.get? j = some c ∧ isSepChar c = true := by
  rw [sepAt] at h
  rcases hg : l.get? j with _ | c
  · rw [hg] at h; simp at h
  · rw [hg] at h; exact ⟨c, rfl, h⟩

/-- A successful date search needs two separator characters at distinct
offsets ≥ 1. -/
theorem dateSearch_two_seps {l : List Char} (h : dateSearch l = true) :
    ∃ j1 j2, 1 ≤ j1 ∧ j1 < j2 ∧ sepAt l j1 = true ∧ sepAt l j2 = true := by
  rw [dateSearch, List.any_eq_true] at h
  rcases h with ⟨i, _, hmatch⟩
  rw [Bool.and_eq_true] at hmatch
  rcases hmatch with ⟨_, hmatch⟩
  rw [dateMatchAt, List.any_eq_true] at hmatch
  rcases hmatch with ⟨a, _, hmatch⟩
  simp only [Bool.and_eq_true, List.any_eq_true] at hmatch
  rcases hmatch with ⟨⟨_, hsep1⟩, b, _, ⟨⟨_, hsep2⟩, _⟩⟩
  exact ⟨i + (a + 1), i + (a + 1) + 1 + (b + 1), by omega, by omega, hsep1, hsep2⟩

/-- Every character of an integer match at offset ≥ 1 is a digit. -/
theorem intMatch_digits {l : List Char} (h : intMatch l = true) :
    ∀ j c, 1 ≤ j → l.get? j = some c → c.isDigit = true := by
  intro j c hj hg
  rcases l with _ | ⟨hd, rest⟩
  · simp [intMatch] at h
  · rw [intMatch] at h
    rcases j with _ | j
    · omega
    · rw [List.get?_cons_succ] at hg
      have hcm : c ∈ rest := List.get?_mem hg
      by_cases hsign : (hd = '+' || hd = '-') = true
      · rw [if_pos hsign, digitsBody, Bool.and_eq_true, List.all_eq_true] at h
        exact h.2 c hcm
      · rw [if_neg hsign, digitsBody, Bool.and_eq_true, List.all_eq_true] at h
        exact h.2 c (List.mem_cons_of_mem _ hcm)

/-- An integer match excludes any date-pattern match. -/
theorem intMatch_no_date {l : List Char} (h : intMatch l = true) :
    dateSearch l = false := by
  by_contra hd
  rw [Bool.not_eq_false] at hd
  rcases dateSearch_two_seps hd with ⟨j1, _, hj1, _, hsep1, _⟩
  rcases sepAt_char hsep1 with ⟨c, hg, hsc⟩
  have := intMatch_digits h j1 c hj1 hg
  rw [isSepChar_not_digit hsc] at this
  exact Bool.false_ne_true this

/-- Decomposition of a float-body match: an all-digit prefix, one
dot-or-comma separator, an all-digit suffix. -/
theorem floatBody_decomp {m : List Char}
    (h : (floatBodyA m || floatBodyB m || floatBodyC m) = true) :
    ∃ a sep b, m = a ++ sep :: b ∧ a.all Char.isDigit = true ∧
      b.all Char.isDigit = true := by
  have hspan : m.span Char.isDigit = (m.takeWhile Char.isDigit, m.dropWhile Char.isDigit) :=
    List.span_eq_take_drop Char.isDigit m
  have hall : (m.takeWhile Char.isDigit).all Char.isDigit = true := by
    rw [List.all_eq_true]
    intro c hc
    exact List.mem_takeWhile_imp hc
  have happ : m.takeWhile Char.isDigit ++ m.dropWhile Char.isDigit = m :=
    List.takeWhile_append_dropWhile Char.isDigit m
  rcases hdrop : m.dropWhile Char.isDigit with _ | ⟨sep, b⟩
  · exfalso
    rw [floatBodyA, floatBodyB, floatBodyC, hspan, hdrop] at h
    simp at h
  · have hm : m = m.takeWhile Char.isDigit ++ sep :: b := by
      conv_lhs => rw [← happ, hdrop]
    refine ⟨m.takeWhile Char.isDigit, sep, b, hm, hall, ?_⟩
    rw [floatBodyA, floatBodyB, floatBodyC, hspan, hdrop] at h
    simp only [Bool.or_eq_true, Bool.and_eq_true] at h
    rcases h with (h | h) | h <;> tauto

/-- All characters of a split list away from the separator offset are
digits. -/
theorem split_digits {m a b : List Char} {sep : Char}
    (hm : m = a ++ sep :: b) (ha : a.all Char.isDigit = true)
    (hb : b.all Char.isDigit = true) :
    ∀ j c, j ≠ a.length → m.get? j = some c → c.isDigit = true := by
  intro j c hj hg
  subst hm
  rcases Nat.lt_trichotomy j a.length with hlt | heq | hgt
  · rw [List.get?_append hlt] at hg
    exact (List.all_eq_true.1 ha) c (List.get?_mem hg)
  · exact absurd heq hj
  · rw [List.get?_append_right (le_of_lt hgt)] at hg
    rcases hd : j - a.length with _ | d
    · omega
    · rw [hd, List.get?_cons_succ] at hg
      exact (List.all_eq_true.1 hb) c (List.get?_mem hg)

/-- A float match on the comma-normalized string pins down a single
offset `p`: every other character at offset ≥ 1 of the original string
is a digit. -/
theorem floatMatch_shape {l : List Char}
    (h : floatMatch (normComma l) = true) :
    ∃ p, ∀ j c, 1 ≤ j → j ≠ p → l.get? j = some c → c.isDigit = true := by
  have htrans : ∀ p, (∀ j c, 1 ≤ j → j ≠ p →
      (normComma l).get? j = some c → c.isDigit = true) →
      (∀ j c, 1 ≤ j → j ≠ p → l.get? j = some c → c.isDigit = true) := by
    intro p hp j c hj hjp hg
    have hgm : (normComma l).get? j = some (if c = ',' then '.' else c) := by
      rw [normComma, List.get?_map, hg]
      rfl
    have := hp j _ hj hjp hgm
    by_cases hc : c = ','
    · rw [if_pos hc] at this
      simp at this
    · rwa [if_neg hc] at this
  rcases hm : normComma l with _ | ⟨hd, rest⟩
  · rw [hm] at h
    simp [floatMatch] at h
  · rw [hm, floatMatch] at h
    by_cases hsign : (hd = '+' || hd = '-') = true
    · rw [if_pos hsign] at h
      rcases floatBody_decomp h with ⟨a, sep, b, hrest, ha, hb⟩
      refine ⟨a.length + 1, htrans _ ?_⟩
      intro j c hj hjp hg
      rw [hm] at hg
      rcases j with _ | j
      · omega
      · rw [List.get?_cons_succ] at hg
        exact split_digits hrest ha hb j c (by omega) hg
    · rw [if_neg hsign] at h
      rcases floatBody_decomp h with ⟨a, sep, b, hrest, ha, hb⟩
      refine ⟨a.length, htrans _ ?_⟩
      intro j c _ hjp hg
      rw [hm, hrest] at hg
      exact split_digits rfl ha hb j c hjp hg

/-- A float match excludes any date-pattern match. -/
theorem floatMatch_no_date {l : List Char}
    (h : floatMatch (normComma l) = true) : dateSearch l = false := by
  by_contra hd
  rw [Bool.not_eq_false] at hd
  rcases dateSearch_two_seps hd with ⟨j1, j2, hj1, hj12, hsep1, hsep2⟩
  rcases floatMatch_shape h with ⟨p, hp⟩
  rcases sepAt_char hsep1 with ⟨c1, hg1, hsc1⟩
  rcases sepAt_char hsep2 with ⟨c2, hg2, hsc2⟩
  have hp1 : j1 = p := by
    by_contra hne
    have := hp j1 c1 hj1 hne hg1
    rw [isSepChar_not_digit hsc1] at this
    exact Bool.false_ne_true this
  have hp2 : j2 = p := by
    by_contra hne
    have := hp j2 c2 (by omega) hne hg2
    rw [isSepChar_not_digit hsc2] at this
    exact Bool.false_ne_true this
  omega

/-- C5: `classify_value` is a total function into the five buckets, and
its date-first source order coincides with the spec's priority order
blank → integer → float → date → text (the integer and float patterns
are disjoint from the date pattern). -/
theorem classify_value_priority (s : List Char) :
    classifyValue s = claimClassify s := by
  rw [classifyValue, claimClassify]
  by_cases hempty : (pyStrip s).isEmpty
  · simp [hempty]
  · simp only [hempty, if_false]
    by_cases hi : intMatch (pyStrip s)
    · rw [intMatch_no_date hi]
      simp [hi]
    · by_cases hf : floatMatch (normComma (pyStrip s))
      · rw [floatMatch_no_date hf]
        simp [hi, hf]
      · by_cases hd : dateSearch (pyStrip s) <;>
          simp [hi, hf, hd]

/-! ## HLL-lite distinct counter (src/core/analysis/column_profiler.py,
class `HyperLogLogLite`)

`add` hashes its string through `hashlib.blake2b` (standard library,
outside this repository) into a 64-bit integer; the embedding takes that
integer directly, so a "sequence of add calls" is a sequence of 64-bit
hash values.  `hashed & (register_count - 1)` is `hashed %
register_count` because the register count is a power of two.  The
float arithmetic of `estimate` is modelled as exact real arithmetic and
Python `int()` as truncation toward zero. -/

/-- The register state of a `HyperLogLogLite`. -/
structure HLLState where
  precision : Nat
  registers : List Nat
  deriving Repr, DecidableEq

/-- `HyperLogLogLite.__init__`: clamp the precision to `[4, 16]` and
allocate `2^precision` zeroed registers. -/
def mkHLL (p : Nat) : HLLState :=
  let prec := min 16 (max 4 p)
  ⟨prec, List.replicate (2 ^ prec) 0⟩

/-- The `while` loop of `HyperLogLogLite._rho` (fuel-bounded; the loop
increments `leading` and exits once `leading > bits`, so `bits + 1` fuel
always reaches the exit). -/
def rhoLoop (value bits leading : Nat) : Nat → Nat
  | 0 => leading
  | fuel + 1 =>
    if leading ≤ bits ∧ (value >>> (bits - leading)) % 2 = 0 then
      rhoLoop value bits (leading + 1) fuel
    else leading

/-- `HyperLogLogLite._rho`: position of the leading one-bit inside a
`bits`-wide window, `bits + 1` when the value is zero. -/
def rho (value bits : Nat) : Nat :=
  if value = 0 then bits + 1 else rhoLoop value bits 1 (bits + 1)

/-- `HyperLogLogLite.add` on an already-hashed 64-bit value: split into
register index and residue, and raise the chosen register to the
residue's leading-one position if that is larger. -/
def addHash (s : HLLState) (hashed : Nat) : HLLState :=
  let m := 2 ^ s.precision
  let index := hashed % m
  let w := hashed >>> s.precision
  let leading := rho w (64 - s.precision)
  if leading > s.registers.getD index 0 then
    { s with registers := s.registers.set index leading }
  else s

/-- `register_count` as a real. -/
noncomputable def hllM (s : HLLState) : ℝ := ((2 ^ s.precision : Nat) : ℝ)

/-- `alpha = 0.7213 / (1 + 1.079 / m)`. -/
noncomputable def hllAlpha (s : HLLState) : ℝ := 0.7213 / (1 + 1.079 / hllM s)

/-- `indicator = sum(2.0 ** (-register) for register in registers)`. -/
noncomputable def hllIndicator (s : HLLState) : ℝ :=
  (s.registers.map (fun (r : Nat) => (2 : ℝ) ^ (-(r : ℤ)))).sum

/-- `raw = alpha * m² / indicator`. -/
noncomputable def hllRaw (s : HLLState) : ℝ :=
  hllAlpha s * (hllM s * hllM s) / hllIndicator s

/-- `zero_registers = registers.count(0)`. -/
def hllZeros (s : HLLState) : Nat := s.registers.count 0

/-- Python `int()`: truncation toward zero. -/
noncomputable def intTrunc (x : ℝ) : ℤ := if x < 0 then -⌊-x⌋ else ⌊x⌋

/-- The small-range (linear-counting) branch is taken iff some register
is zero and the raw estimate is below `2.5 m`. -/
noncomputable def usesLinear (s : HLLState) : Prop :=
  hllZeros s ≠ 0 ∧ hllRaw s < 2.5 * hllM s

/-- `HyperLogLogLite.estimate`. -/
noncomputable def estimate (s : HLLState) : ℤ :=
  if hllIndicator s = 0 then 0
  else if hllZeros s ≠ 0 ∧ hllRaw s < 2.5 * hllM s then
    intTrunc (hllM s * Real.log (hllM s / (hllZeros s : ℝ)))
  else intTrunc (hllRaw s)

theorem intTrunc_eq_floor {x : ℝ} (h : 0 ≤ x) : intTrunc x = ⌊x⌋ := by
  rw [intTrunc, if_neg (not_lt.2 h)]

/-- A state reached by fifteen `add` calls whose hashes land in
registers 1–15 with leading-one position 1, leaving register 0 zero. -/
def hllCexBase : HLLState :=
  ((List.range 15).map (fun i => (i + 1) + 2 ^ 63)).foldl addHash (mkHLL 4)

/-- One further `add` whose hash lands in the last zero register. -/
def hllCexNext : HLLState := addHash hllCexBase (2 ^ 63)

theorem hllCexBase_registers : hllCexBase.registers = 0 :: List.replicate 15 1 := by
  decide

theorem hllCexNext_registers : hllCexNext.registers = List.replicate 16 1 := by
  decide

/-- Counterexample to C6 as stated: on the reachable 16-register state
with registers `[0, 1, …, 1]`, the estimate sits in the linear-counting
branch at `int(16·ln 16) = 44`; the next distinct add fills the last
zero register, switches to the raw estimator, and the estimate drops
below 44 — the distinct-count estimate decreases across the switch. -/
theorem hll_estimate_decreases_cex :
    estimate hllCexNext < estimate hllCexBase := by
  have hprec : hllCexBase.precision = 4 := by decide
  have hprec' : hllCexNext.precision = 4 := by decide
  have hm : hllM hllCexBase = 16 := by
    rw [hllM, hprec]; norm_num
  have hm' : hllM hllCexNext = 16 := by
    rw [hllM, hprec']; norm_num
  have hind : hllIndicator hllCexBase = 17 / 2 := by
    rw [hllIndicator, hllCexBase_registers]
    simp only [List.map_cons, List.map_replicate, List.sum_cons,
      List.sum_replicate, nsmul_eq_mul]
    norm_num
  have hind' : hllIndicator hllCexNext = 8 := by
    rw [hllIndicator, hllCexNext_registers]
    simp only [List.map_replicate, List.sum_replicate, nsmul_eq_mul]
    norm_num
  have hzeros : hllZeros hllCexBase = 1 := by decide
  have hzeros' : hllZeros hllCexNext = 0 := by decide
  have hbase : estimate hllCexBase = 44 := by
    rw [estimate, if_neg (by rw [hind]; norm_num)]
    rw [if_pos ?branch]
    case branch =>
      refine ⟨by rw [hzeros]; exact one_ne_zero, ?_⟩
      rw [hllRaw, hllAlpha, hm, hind]
      norm_num
    rw [hm, hzeros]
    have h16 : (16 : ℝ) / (1 : ℕ) = 16 := by norm_num
    rw [h16]
    have hlog16 : Real.log 16 = 4 * Real.log 2 := by
      have h2 : (16 : ℝ) = 2 ^ (4 : ℕ) := by norm_num
      rw [h2, Real.log_pow]
      push_cast
      ring
    have hlogpos : 0 < Real.log 2 := Real.log_pos (by norm_num)
    rw [intTrunc_eq_floor (by rw [hlog16]; positivity)]
    rw [hlog16]
    have hval : (16 : ℝ) * (4 * Real.log 2) = 64 * Real.log 2 := by ring
    rw [hval]
    have hgt := Real.log_two_gt_d9
    have hlt := Real.log_two_lt_d9
    rw [Int.floor_eq_iff]
    constructor
    · push_cast
      nlinarith
    · push_cast
      nlinarith
  have hnext : estimate hllCexNext < 44 := by
    rw [estimate, if_neg (by rw [hind']; norm_num)]
    rw [if_neg (by rw [hzeros']; exact fun h => h.1 rfl)]
    have hrawval : hllRaw hllCexNext =
        0.7213 / (1 + 1.079 / 16) * (16 * 16) / 8 := by
      rw [hllRaw, hllAlpha, hm', hind']
    have hrawpos : (0 : ℝ) ≤ hllRaw hllCexNext := by
      rw [hrawval]; norm_num
    rw [intTrunc_eq_floor hrawpos]
    have : hllRaw hllCexNext < 44 := by
      rw [hrawval]; norm_num
    exact_mod_cast Int.floor_lt.2 (by exact_mod_cast this)
  omega

theorem map_sum_set (f : Nat → ℝ) :
    ∀ (l : List Nat) (j v : Nat) (hj : j < l.length),
      ((l.set j v).map f).sum + f l[j] = (l.map f).sum + f v := by
  intro l
  induction l with
  | nil => intro j v hj; simp at hj
  | cons a rest ih =>
    intro j v hj
    rcases j with _ | j
    · simp [List.set]
      ring
    · simp only [List.set, List.map_cons, List.sum_cons, List.getElem_cons_succ]
      have := ih j v (by simpa using hj)
      linarith

theorem count_set_add :
    ∀ (l : List Nat) (j v a : Nat) (hj : j < l.length),
      (l.set j v).count a + (if l[j] = a then 1 else 0) =
        l.count a + (if v = a then 1 else 0) := by
  intro l
  induction l with
  | nil => intro j v a hj; simp at hj
  | cons hd rest ih =>
    intro j v a hj
    rcases j with _ | j
    · simp only [List.set, List.getElem_cons_zero, List.count_cons]
      by_cases hv : v = a <;> by_cases hh : hd = a <;>
        simp [hv, hh]
    · simp only [List.set, List.getElem_cons_succ, List.count_cons]
      have := ih j v a (by simpa using hj)
      by_cases hh : hd = a <;> simp [hh] <;> omega

theorem hllIndicator_pos (s : HLLState) (hne : s.registers ≠ []) :
    0 < hllIndicator s := by
  rw [hllIndicator]
  refine List.sum_pos _ ?_ ?_
  · intro x hx
    rcases List.mem_map.1 hx with ⟨r, _, hr⟩
    rw [← hr]
    positivity
  · simpa using hne

theorem hllAlpha_pos (s : HLLState) : 0 < hllAlpha s := by
  rw [hllAlpha, hllM]
  have hm : (0 : ℝ) < ((2 ^ s.precision : Nat) : ℝ) := by positivity
  positivity

theorem hllRaw_nonneg (s : HLLState) (hne : s.registers ≠ []) :
    0 ≤ hllRaw s := by
  rw [hllRaw]
  have h1 := hllAlpha_pos s
  have h2 := hllIndicator_pos s hne
  have hm : (0 : ℝ) ≤ hllM s := by rw [hllM]; positivity
  positivity

/-- `add` leaves the precision unchanged. -/
theorem addHash_precision (s : HLLState) (hashed : Nat) :
    (addHash s hashed).precision = s.precision := by
  rw [addHash]
  split_ifs <;> rfl

/-- `add` either leaves the state unchanged or raises one register. -/
theorem addHash_cases (s : HLLState) (hashed : Nat)
    (hwf : s.registers.length = 2 ^ s.precision) :
    addHash s hashed = s ∨
    ∃ idx v, ∃ hidx : idx < s.registers.length,
      s.registers[idx] < v ∧
      (addHash s hashed).registers = s.registers.set idx v := by
  rw [addHash]
  by_cases hupd : rho (hashed >>> s.precision) (64 - s.precision) >
      s.registers.getD (hashed % 2 ^ s.precision) 0
  · right
    have hidx : hashed % 2 ^ s.precision < s.registers.length := by
      rw [hwf]
      exact Nat.mod_lt _ (by positivity)
    refine ⟨hashed % 2 ^ s.precision,
      rho (hashed >>> s.precision) (64 - s.precision), hidx, ?_, ?_⟩
    · have hgetd := List.getD_eq_get s.registers 0 hidx
      rw [List.get_eq_getElem] at hgetd
      rw [← hgetd]
      exact hupd
    · simp only [hupd, if_pos]
  · left
    simp only [hupd, if_neg, not_false_iff]

/-- Raising one register cannot increase the indicator, cannot increase
the zero-register count, and keeps a zero count of zero at zero. -/
theorem hll_set_facts (s : HLLState) (idx v : Nat)
    (hidx : idx < s.registers.length)
    (hv : s.registers[idx] < v) (t : HLLState)
    (htp : t.precision = s.precision)
    (htr : t.registers = s.registers.set idx v) :
    hllIndicator t ≤ hllIndicator s ∧ hllZeros t ≤ hllZeros s ∧
    (hllZeros s = 0 → hllZeros t = 0) ∧ hllM t = hllM s ∧
    hllAlpha t = hllAlpha s := by
  have hsum := map_sum_set (fun (r : Nat) => (2 : ℝ) ^ (-(r : ℤ)))
    s.registers idx v hidx
  have hcnt := count_set_add s.registers idx v 0 hidx
  have hmono : (2 : ℝ) ^ (-(v : ℤ)) ≤
      (2 : ℝ) ^ (-((s.registers[idx] : Nat) : ℤ)) := by
    refine zpow_le_zpow_right₀ (by norm_num) ?_
    omega
  have hM : hllM t = hllM s := by rw [hllM, hllM, htp]
  refine ⟨?_, ?_, ?_, hM, by rw [hllAlpha, hllAlpha, hM]⟩
  · rw [hllIndicator, hllIndicator, htr]
    simp only at hsum hmono
    linarith
  · rw [hllZeros, hllZeros, htr]
    have hvne : ¬ v = 0 := by omega
    by_cases hz : s.registers[idx] = 0 <;>
      simp [hz, hvne] at hcnt <;> omega
  · intro hz
    rw [hllZeros] at hz
    rw [hllZeros, htr]
    have hvne : ¬ v = 0 := by omega
    by_cases hz0 : s.registers[idx] = 0 <;>
      simp [hz0, hvne] at hcnt <;> omega

/-- C6 (amended): the estimate never decreases on an `add` that does not
switch the estimator out of the linear-counting branch: if the state
still uses linear counting when it did before (raw-branch states can
never return to the linear branch), the estimate is monotone.  The
decrease of the counterexample can only happen at the single add that
switches from linear counting to the raw estimator. -/
theorem hll_estimate_same_regime_mono (s : HLLState) (hashed : Nat)
    (hwf : s.registers.length = 2 ^ s.precision)
    (hreg : usesLinear s → usesLinear (addHash s hashed)) :
    estimate s ≤ estimate (addHash s hashed) := by
  rcases addHash_cases s hashed hwf with heq | ⟨idx, v, hidx, hv, hset⟩
  · rw [heq]
  · have hne : s.registers ≠ [] := by
      intro h
      rw [h] at hidx
      simp at hidx
    have htp := addHash_precision s hashed
    rcases hll_set_facts s idx v hidx hv (addHash s hashed) htp hset with
      ⟨hind, hzle, hz0, hM, halpha⟩
    have hne2 : (addHash s hashed).registers ≠ [] := by
      rw [hset]
      intro h
      have h2 := congrArg List.length h
      rw [List.length_set] at h2
      simp only [List.length_nil] at h2
      omega
    have hpos := hllIndicator_pos s hne
    have hpos2 := hllIndicator_pos (addHash s hashed) hne2
    have hraw : hllRaw s ≤ hllRaw (addHash s hashed) := by
      rw [hllRaw, hllRaw, hM, halpha]
      have hnum : (0 : ℝ) ≤ hllAlpha s * (hllM s * hllM s) := by
        have := hllAlpha_pos s
        have hm : (0 : ℝ) ≤ hllM s := by rw [hllM]; positivity
        positivity
      exact div_le_div_of_nonneg_left hnum hpos2 hind
    have hmpos : (0 : ℝ) < hllM s := by rw [hllM]; positivity
    by_cases hlin : usesLinear s
    · have hlin2 := hreg hlin
      rw [usesLinear] at hlin hlin2
      rw [estimate, estimate, if_neg (ne_of_gt hpos),
        if_neg (ne_of_gt hpos2), if_pos hlin, if_pos hlin2, hM]
      have hz2pos : 0 < hllZeros (addHash s hashed) :=
        Nat.pos_of_ne_zero hlin2.1
      have hzpos : 0 < hllZeros s := Nat.pos_of_ne_zero hlin.1
      have hzbound : hllZeros s ≤ 2 ^ s.precision := by
        rw [hllZeros, ← hwf]
        exact List.count_le_length 0 s.registers
      have hdivle : hllM s / (hllZeros s : ℝ) ≤
          hllM s / (hllZeros (addHash s hashed) : ℝ) := by
        refine div_le_div_of_nonneg_left (le_of_lt hmpos) ?_ ?_
        · exact_mod_cast hz2pos
        · exact_mod_cast hzle
      have hdpos : (0 : ℝ) < hllM s / (hllZeros s : ℝ) := by
        apply div_pos hmpos
        exact_mod_cast hzpos
      have hlogle : Real.log (hllM s / (hllZeros s : ℝ)) ≤
          Real.log (hllM s / (hllZeros (addHash s hashed) : ℝ)) :=
        Real.log_le_log hdpos hdivle
      have hone : (1 : ℝ) ≤ hllM s / (hllZeros s : ℝ) := by
        rw [le_div_iff (by exact_mod_cast hzpos), one_mul, hllM]
        exact_mod_cast hzbound
      have hlognn : 0 ≤ Real.log (hllM s / (hllZeros s : ℝ)) :=
        Real.log_nonneg hone
      have hlog2nn : 0 ≤ Real.log (hllM s / (hllZeros (addHash s hashed) : ℝ)) :=
        le_trans hlognn hlogle
      rw [intTrunc_eq_floor (mul_nonneg (le_of_lt hmpos) hlognn),
        intTrunc_eq_floor (mul_nonneg (le_of_lt hmpos) hlog2nn)]
      apply Int.floor_le_floor
      exact mul_le_mul_of_nonneg_left hlogle (le_of_lt hmpos)
    · have hlin2 : ¬ usesLinear (addHash s hashed) := by
        rw [usesLinear] at hlin ⊢
        push_neg at hlin ⊢
        intro hz2
        have hz : hllZeros s ≠ 0 := by
          intro h0
          exact hz2 (hz0 h0)
        have := hlin hz
        rw [hM]
        linarith
      rw [usesLinear] at hlin hlin2
      rw [estimate, estimate, if_neg (ne_of_gt hpos),
        if_neg (ne_of_gt hpos2), if_neg hlin, if_neg hlin2]
      rw [intTrunc_eq_floor (hllRaw_nonneg s hne),
        intTrunc_eq_floor (hllRaw_nonneg _ hne2)]
      exact Int.floor_le_floor hraw

/-- Witness for C6 (amended): adding one hash to the fresh 16-register
state keeps the estimator in the linear-counting branch, and the
estimate does not decrease. -/
theorem hll_estimate_same_regime_mono_witness :
    estimate (mkHLL 4) ≤ estimate (addHash (mkHLL 4) (2 ^ 63)) := by
  have hwf : (mkHLL 4).registers.length = 2 ^ (mkHLL 4).precision := by decide
  refine hll_estimate_same_regime_mono (mkHLL 4) (2 ^ 63) hwf ?_
  intro _
  have hregs : (addHash (mkHLL 4) (2 ^ 63)).registers =
      1 :: List.replicate 15 0 := by decide
  have hprec : (addHash (mkHLL 4) (2 ^ 63)).precision = 4 := by decide
  constructor
  · rw [hllZeros, hregs]
    decide
  · have hm : hllM (addHash (mkHLL 4) (2 ^ 63)) = 16 := by
      rw [hllM, hprec]; norm_num
    have hind : hllIndicator (addHash (mkHLL 4) (2 ^ 63)) = 31 / 2 := by
      rw [hllIndicator, hregs]
      simp only [List.map_cons, List.map_replicate, List.sum_cons,
        List.sum_replicate, nsmul_eq_mul]
      norm_num
    rw [hllRaw, hllAlpha, hm, hind]
    norm_num

end CSVReader
